import Mathlib

/-!
Matrix multiplication tiling benchmark: embedding and verified properties

Shallow embedding of `matmul_tiling_benchmark.cpp`.

* `Matrix α` is `std::vector<std::vector<float>>`, a list of rows.  The element
  type is a parameter: kernels only use `0`, `+` and `*`.  Results that hold in
  every arithmetic assume no law; results of exact arithmetic are stated over
  an arbitrary semiring; `F32` is the type `float` itself, as IEEE 754 binary32.
* `operator[]` is read as a bounds-checked access.  A run ends in an
  `Outcome`: it completed, it stopped at an out-of-range index, or a block
  loop used up its iteration budget.  Each case carries the state reached.
* The dimension `N` and the block size `BLOCK_SIZE` are compile-time constants
  of the program; the kernels take them as parameters `N` and `T`, and the
  compiled values are `Compiled.N` and `Compiled.BLOCK_SIZE`.
* Loop counters are natural numbers.  In every run in which the block size
  divides the dimension no counter exceeds `N`, so `int` never overflows.
-/

namespace MatmulTiling

universe u

/-! ## Data model -/

/-- Matrix storage of the program: a vector of row vectors. -/
abbrev Matrix (α : Type u) := List (List α)

/-- Result of running a piece of the program on a state of type `σ`. -/
inductive Outcome (σ : Type u) where
  /-- The code ran to completion and left the state `s`. -/
  | done (s : σ)
  /-- The code used an index outside a vector; `s` is the state at that point. -/
  | outOfBounds (s : σ)
  /-- A block loop was still running when its iteration budget ran out. -/
  | outOfFuel (s : σ)
  deriving DecidableEq

namespace Outcome

variable {σ τ : Type u}

/-- Sequencing: continue with `f` after a completed run, keep a fault as it is. -/
def andThen (o : Outcome σ) (f : σ → Outcome σ) : Outcome σ :=
  match o with
  | done s => f s
  | outOfBounds s => outOfBounds s
  | outOfFuel s => outOfFuel s

/-- Sequencing for a computation on a local variable of type `τ` nested in code
whose state is `s : σ`: a fault of the inner computation is a fault of the
enclosing code, in the enclosing state. -/
def within (o : Outcome τ) (s : σ) (f : τ → Outcome σ) : Outcome σ :=
  match o with
  | done t => f t
  | outOfBounds _ => outOfBounds s
  | outOfFuel _ => outOfFuel s

/-- The run came to an end by itself: it completed or stopped at a bad index,
rather than being cut off by the iteration budget. -/
def terminated : Outcome σ → Bool
  | done _ => true
  | outOfBounds _ => true
  | outOfFuel _ => false

end Outcome

namespace Matrix

variable {α : Type u}

/-- Checked read of `M[i][j]`. -/
def get? (M : Matrix α) (i j : Nat) : Option α :=
  match M[i]? with
  | none => none
  | some row => row[j]?

/-- Checked write `M[i][j] = v`. -/
def set? (M : Matrix α) (i j : Nat) (v : α) : Option (Matrix α) :=
  match M[i]? with
  | none => none
  | some row => if j < row.length then some (M.set i (row.set j v)) else none

/-- Value of `M[i][j]`, with `0` standing for a cell that does not exist. -/
def entry [Zero α] (M : Matrix α) (i j : Nat) : α :=
  (M.get? i j).getD 0

/-- Shape predicate: `M` has exactly `N` rows of exactly `N` elements. -/
def IsSquare (N : Nat) (M : Matrix α) : Prop :=
  M.length = N ∧ ∀ row ∈ M, row.length = N

instance (N : Nat) (M : Matrix α) : Decidable (IsSquare N M) := by
  unfold IsSquare
  infer_instance

end Matrix

/-! ## Loops -/

section Loops

variable {σ : Type u}

/-- Runs `body x`, `body (x+1)`, ... for `n` consecutive counter values. -/
def forCount (body : Nat → σ → Outcome σ) : Nat → Nat → σ → Outcome σ
  | 0, _, s => Outcome.done s
  | n + 1, x, s => (body x s).andThen (forCount body n (x + 1))

/-- The loop `for (int x = lo; x < hi; ++x) body`: it runs `hi - lo` times. -/
def forRange (lo hi : Nat) (body : Nat → σ → Outcome σ) (s : σ) : Outcome σ :=
  forCount body (hi - lo) lo s

/-- The loop `for (int x = x0; x < hi; x += step) body`, started at `x`, with
a budget of `fuel` iterations.  With `step = 0` the counter never advances. -/
def forStep (hi step : Nat) (body : Nat → σ → Outcome σ) : Nat → Nat → σ → Outcome σ
  | 0, x, s => if x < hi then Outcome.outOfFuel s else Outcome.done s
  | fuel + 1, x, s =>
    if x < hi then (body x s).andThen (forStep hi step body fuel (x + step))
    else Outcome.done s

end Loops

/-! ## Configuration -/

namespace Compiled

/-- Compiled matrix dimension, `const int N = 1024`. -/
def N : Nat := 1024

/-- Default of the `BLOCK_SIZE` definition, `32`. -/
def BLOCK_SIZE : Nat := 32

end Compiled

/-! ## Initialization and kernels -/

section Kernels

variable {α : Type u}

/-- The function `initialize_matrix(M, val)`: `M.assign(N, std::vector<float>(N, val))`.
The previous value of `M` is discarded. -/
def initialize_matrix (N : Nat) (_M : Matrix α) (val : α) : Matrix α :=
  List.replicate N (List.replicate N val)

variable [Zero α] [Add α] [Mul α]

/-- One step of a reduction loop, `sum += A[i][k] * B[k][j]`. -/
def mulAddStep (A B : Matrix α) (i j k : Nat) (sum : α) : Outcome α :=
  match A.get? i k, B.get? k j with
  | some a, some b => Outcome.done (sum + a * b)
  | _, _ => Outcome.outOfBounds sum

/-- The assignment `C[i][j] = sum`. -/
def storeCell (C : Matrix α) (i j : Nat) (sum : α) : Outcome (Matrix α) :=
  match C.set? i j sum with
  | some C' => Outcome.done C'
  | none => Outcome.outOfBounds C

/-- Body of the `j` loop of `baseline_matmul`: `sum` starts at `0`, the `k`
loop runs over `0 .. N-1`, then `C[i][j] = sum`. -/
def baselineCell (N : Nat) (A B : Matrix α) (i j : Nat) (C : Matrix α) :
    Outcome (Matrix α) :=
  (forRange 0 N (mulAddStep A B i j) (0 : α)).within C (storeCell C i j)

/-- The kernel `baseline_matmul(A, B, C)`: the `i`, `j`, `k` loop nest. -/
def baseline_matmul (N : Nat) (A B C : Matrix α) : Outcome (Matrix α) :=
  forRange 0 N (fun i => forRange 0 N (fun j => baselineCell N A B i j)) C

/-- Body of the `j` loop of `tiled_matmul`: `sum` starts at `C[i][j]`, the `k`
loop runs over `kk .. kk+T-1`, then `C[i][j] = sum`. -/
def tiledCell (T : Nat) (A B : Matrix α) (kk i j : Nat) (C : Matrix α) :
    Outcome (Matrix α) :=
  match C.get? i j with
  | none => Outcome.outOfBounds C
  | some c =>
    (forRange kk (kk + T) (mulAddStep A B i j) c).within C (storeCell C i j)

/-- The three element loops of `tiled_matmul` for the block `(ii, jj, kk)`. -/
def tiledBlock (T : Nat) (A B : Matrix α) (ii jj kk : Nat) (C : Matrix α) :
    Outcome (Matrix α) :=
  forRange ii (ii + T) (fun i => forRange jj (jj + T) (fun j => tiledCell T A B kk i j)) C

/-- The kernel `tiled_matmul(A, B, C)`: three block loops with stride `T` around the
three element loops.  Every block loop has a budget of `fuel` iterations. -/
def tiled_matmul (fuel N T : Nat) (A B C : Matrix α) : Outcome (Matrix α) :=
  forStep N T (fun ii =>
    forStep N T (fun jj =>
      forStep N T (fun kk => tiledBlock T A B ii jj kk) fuel 0) fuel 0) fuel 0 C

end Kernels

/-! ## Benchmark harness -/

/-- Division read as a partial operation: no result when the divisor is zero. -/
def divide? (x y : ℚ) : Option ℚ :=
  if y = 0 then none else some (x / y)

/-- The constant `GFLOPs = 2.0 * N * N * N / 1e9`, in exact arithmetic. -/
def GFLOPs (N : Nat) : ℚ :=
  2 * (N : ℚ) * (N : ℚ) * (N : ℚ) / 1000000000

/-- The value `duration_cast<nanoseconds>(end - start).count() / 1e9`: the elapsed time in
seconds of a measured nanosecond count. -/
def elapsed_seconds (count : Int) : ℚ :=
  (count : ℚ) / 1000000000

/-- What `main` computes: the operation count, the two output matrices and the
derived metrics. -/
structure Report where
  /-- Total operation count, in billions. -/
  GFLOPs : ℚ
  /-- Run of `baseline_matmul(A, B, C_base)`. -/
  C_base : Outcome (Matrix ℚ)
  /-- Elapsed seconds of the baseline kernel. -/
  time_base : ℚ
  /-- The quotient `GFLOPs / time_base`. -/
  throughput_base : Option ℚ
  /-- Run of `tiled_matmul(A, B, C_tiled)`. -/
  C_tiled : Outcome (Matrix ℚ)
  /-- Elapsed seconds of the tiled kernel. -/
  time_tiled : ℚ
  /-- The quotient `GFLOPs / time_tiled`. -/
  throughput_tiled : Option ℚ
  /-- The quotient `time_base / time_tiled`. -/
  speedup : Option ℚ

/-- The program `main`, for dimension `N`, block size `T` and the two clock
differences (in nanoseconds) measured around the kernel calls.  `A` is filled
with `2`, `B` with `3`, both outputs with `0`; both kernels are then run and
the metrics derived, with no test on `N`, `T` or the measured times. -/
def main (fuel N T : Nat) (count_base count_tiled : Int) : Report :=
  let GFLOPs := GFLOPs N
  let A := initialize_matrix N ([] : Matrix ℚ) 2
  let B := initialize_matrix N ([] : Matrix ℚ) 3
  let C_base := initialize_matrix N ([] : Matrix ℚ) 0
  let C_tiled := initialize_matrix N ([] : Matrix ℚ) 0
  let time_base := elapsed_seconds count_base
  let time_tiled := elapsed_seconds count_tiled
  { GFLOPs := GFLOPs
    C_base := baseline_matmul N A B C_base
    time_base := time_base
    throughput_base := divide? GFLOPs time_base
    C_tiled := tiled_matmul fuel N T A B C_tiled
    time_tiled := time_tiled
    throughput_tiled := divide? GFLOPs time_tiled
    speedup := divide? time_base time_tiled }

/-! ## The element type `float` -/

/-- Number of binary digits of `n`, counting at most `fuel` of them. -/
def bitLength : Nat → Nat → Nat
  | 0, _ => 0
  | fuel + 1, n => if n = 0 then 0 else bitLength fuel (n / 2) + 1

/-- Rounding of binary32, to nearest with ties to even.  The exact magnitude is
`p * 2^-(149+u)`; the result is the magnitude of the nearest binary32 value in
units of `2^-149`.  A binary32 value keeps 24 significant binary digits and is
a multiple of `2^-149`, so the last `s = max (digits of p - 24) u` digits of `p`
are rounded away.  Magnitudes of binary32 values are below `2^277` in these
units and their products below `2^554`, so 600 digits are enough. -/
def roundMagnitude (u p : Nat) : Nat :=
  let s := max (bitLength 600 p - 24) u
  let q := p >>> s
  let r := p - (q <<< s)
  let q' := if 1 <<< s < 2 * r ∨ (2 * r = 1 <<< s ∧ q % 2 = 1) then q + 1 else q
  q' <<< (s - u)

/-- The element type `float` of `Matrix` (line 20), read as IEEE 754 binary32.
A finite value is a sign and a magnitude in units of `2^-149`, the smallest
positive binary32 value, of which every finite binary32 value is a multiple.
This is the arithmetic of the language, not code of the repository. -/
inductive F32 where
  /-- The finite value `± magnitude * 2^-149`. -/
  | finite (negative : Bool) (magnitude : Nat)
  /-- Plus or minus infinity. -/
  | inf (negative : Bool)
  /-- Not a number. -/
  | nan
  deriving DecidableEq

namespace F32

/-- A rounded magnitude as a value: magnitudes from `2^128` (`2^277` units) on
overflow to infinity. -/
def pack (negative : Bool) (m : Nat) : F32 :=
  if m < 1 <<< 277 then finite negative m else inf negative

/-- Addition of binary32: the exact sum, rounded. -/
def add : F32 → F32 → F32
  | nan, _ => nan
  | _, nan => nan
  | inf s, inf t => if s = t then inf s else nan
  | inf s, finite _ _ => inf s
  | finite _ _, inf t => inf t
  | finite s m, finite t n =>
    if s = t then pack s (roundMagnitude 0 (m + n))
    else if n < m then pack s (roundMagnitude 0 (m - n))
    else if m < n then pack t (roundMagnitude 0 (n - m))
    else finite false 0

/-- Multiplication of binary32: the exact product, rounded. -/
def mul : F32 → F32 → F32
  | nan, _ => nan
  | _, nan => nan
  | inf s, inf t => inf (xor s t)
  | inf s, finite t n => if n = 0 then nan else inf (xor s t)
  | finite s m, inf t => if m = 0 then nan else inf (xor s t)
  | finite s m, finite t n => pack (xor s t) (roundMagnitude 149 (m * n))

instance : Zero F32 := ⟨finite false 0⟩

instance : Add F32 := ⟨add⟩

instance : Mul F32 := ⟨mul⟩

end F32

/-! ## Specification vocabulary -/

section SpecDefs

variable {α : Type u} [Zero α] [Add α] [Mul α]

/-- The left-to-right reduction
`(((acc + A[i][lo]*B[lo][j]) + A[i][lo+1]*B[lo+1][j]) + ...)` over the `n`
indices `lo, lo+1, ..., lo+n-1`. -/
def foldCell (A B : Matrix α) (i j lo n : Nat) (acc : α) : α :=
  (List.range' lo n).foldl (fun s k => s + A.entry i k * B.entry k j) acc

/-- The matrix `C'` is an `N×N` matrix that differs from `C` exactly on the rectangle of
rows `i0 .. i0+n-1` and columns `j0 .. j0+m-1`, where the cell `(i, j)` holds
`h i j` of its value in `C`. -/
def UpdatesRect (N : Nat) (h : Nat → Nat → α → α) (i0 n j0 m : Nat) (C C' : Matrix α) : Prop :=
  Matrix.IsSquare N C' ∧
    ∀ i j, C'.entry i j =
      if i0 ≤ i ∧ i < i0 + n ∧ j0 ≤ j ∧ j < j0 + m then h i j (C.entry i j) else C.entry i j

end SpecDefs

/-! ## Execution trace of the tiled kernel -/

/-- One executed statement of the loop body of `tiled_matmul`. -/
inductive Event where
  /-- The read `float sum = C[i][j]`. -/
  | load (i j : Nat)
  /-- The innermost statement `sum += A[i][k] * B[k][j]`. -/
  | mulAdd (i j k : Nat)
  /-- The write back `C[i][j] = sum`. -/
  | store (i j : Nat)
  deriving DecidableEq

/-- Tells the innermost statement from the other two. -/
def Event.isMulAdd : Event → Bool
  | Event.mulAdd _ _ _ => true
  | _ => false

section Nest

variable {σ τ : Type u}

/-- Body of the `j` loop of `tiled_matmul` (lines 54-58) with its three
statements as parameters: `load i j` reads the cell into the local variable,
`step i j k` is the innermost statement, `store s i j` writes the local
variable back into the state `s`. -/
def nestCell (load : Nat → Nat → σ → Option τ) (step : Nat → Nat → Nat → τ → Outcome τ)
    (store : σ → Nat → Nat → τ → Outcome σ) (T kk i j : Nat) (s : σ) : Outcome σ :=
  match load i j s with
  | none => Outcome.outOfBounds s
  | some t => (forRange kk (kk + T) (step i j) t).within s (store s i j)

/-- The three element loops of `tiled_matmul` (lines 52-60) for the block
`(ii, jj, kk)`, with the statements as parameters. -/
def nestBlock (load : Nat → Nat → σ → Option τ) (step : Nat → Nat → Nat → τ → Outcome τ)
    (store : σ → Nat → Nat → τ → Outcome σ) (T ii jj kk : Nat) (s : σ) : Outcome σ :=
  forRange ii (ii + T)
    (fun i => forRange jj (jj + T) (fun j => nestCell load step store T kk i j)) s

/-- The loop nest of `tiled_matmul` (lines 48-63) with the three statements of
its body as parameters.  `tiled_matmul` is this nest run with the statements of
the program (`tiled_matmul_eq_tiledNest`). -/
def tiledNest (load : Nat → Nat → σ → Option τ) (step : Nat → Nat → Nat → τ → Outcome τ)
    (store : σ → Nat → Nat → τ → Outcome σ) (fuel N T : Nat) (s : σ) : Outcome σ :=
  forStep N T (fun ii =>
    forStep N T (fun jj =>
      forStep N T (fun kk => nestBlock load step store T ii jj kk) fuel 0) fuel 0) fuel 0 s

/-- Runs `body` once for each counter value of the list, in order. -/
def runOver (body : Nat → σ → Outcome σ) : List Nat → σ → Outcome σ
  | [], s => Outcome.done s
  | x :: xs, s => (body x s).andThen (runOver body xs)

end Nest

/-- Record of the read `float sum = C[i][j]`. -/
def recLoad (i j : Nat) (log : List Event) : Option (List Event) :=
  some (log ++ [Event.load i j])

/-- Record of the innermost statement `sum += A[i][k] * B[k][j]`. -/
def recStep (i j k : Nat) (log : List Event) : Outcome (List Event) :=
  Outcome.done (log ++ [Event.mulAdd i j k])

/-- Record of the write back `C[i][j] = sum`. -/
def recStore (_log : List Event) (i j : Nat) (log : List Event) : Outcome (List Event) :=
  Outcome.done (log ++ [Event.store i j])

/-- Body of the `j` loop of the nest, recording its statements. -/
def traceCell (T kk i j : Nat) : List Event → Outcome (List Event) :=
  nestCell recLoad recStep recStore T kk i j

/-- The three element loops of the nest for the block `(ii, jj, kk)`, recording
the statements they execute. -/
def traceBlock (T ii jj kk : Nat) : List Event → Outcome (List Event) :=
  nestBlock recLoad recStep recStore T ii jj kk

/-- The statements the loop nest executes, in order, started from the empty
record. -/
def tiled_trace (fuel N T : Nat) : Outcome (List Event) :=
  tiledNest recLoad recStep recStore fuel N T []

section Logged

variable {α : Type u} [Add α] [Mul α]

/-- The read `float sum = C[i][j]` of the program, recorded when it succeeds. -/
def logLoad (i j : Nat) (s : Matrix α × List Event) : Option (α × List Event) :=
  match s.1.get? i j with
  | none => none
  | some c => some (c, s.2 ++ [Event.load i j])

/-- The innermost statement of the program (`mulAddStep`), recorded when it
succeeds. -/
def logStep (A B : Matrix α) (i j k : Nat) (t : α × List Event) : Outcome (α × List Event) :=
  match mulAddStep A B i j k t.1 with
  | Outcome.done v => Outcome.done (v, t.2 ++ [Event.mulAdd i j k])
  | Outcome.outOfBounds v => Outcome.outOfBounds (v, t.2)
  | Outcome.outOfFuel v => Outcome.outOfFuel (v, t.2)

/-- The write back of the program (`storeCell`), recorded when it succeeds. -/
def logStore (s : Matrix α × List Event) (i j : Nat) (t : α × List Event) :
    Outcome (Matrix α × List Event) :=
  match storeCell s.1 i j t.1 with
  | Outcome.done C' => Outcome.done (C', t.2 ++ [Event.store i j])
  | Outcome.outOfBounds C' => Outcome.outOfBounds (C', t.2)
  | Outcome.outOfFuel C' => Outcome.outOfFuel (C', t.2)

/-- The loop nest of `tiled_matmul` run on the output matrix together with a
record: every statement of the program is executed on the matrix and, when it
succeeds, appended to the record. -/
def tiled_matmul_logged (fuel N T : Nat) (A B C : Matrix α) :
    Outcome (Matrix α × List Event) :=
  tiledNest logLoad (logStep A B) logStore fuel N T (C, [])

end Logged

/-- Between the records `L` and `L'` every triple `(i, j, k)` of the box
`[i0, i0+n) × [j0, j0+m) × [k0, k0+p)` was processed by the innermost statement
exactly once and no other triple was, which makes `n * m * p` multiply-adds;
every cell of `[i0, i0+n) × [j0, j0+m)` was read `q` times and written back
`q` times, and no other cell was. -/
def Covers (i0 n j0 m k0 p q : Nat) (L L' : List Event) : Prop :=
  (∀ i j k, L'.count (Event.mulAdd i j k) = L.count (Event.mulAdd i j k) +
      if i0 ≤ i ∧ i < i0 + n ∧ j0 ≤ j ∧ j < j0 + m ∧ k0 ≤ k ∧ k < k0 + p then 1 else 0) ∧
  (∀ i j, L'.count (Event.load i j) = L.count (Event.load i j) +
      if i0 ≤ i ∧ i < i0 + n ∧ j0 ≤ j ∧ j < j0 + m then q else 0) ∧
  (∀ i j, L'.count (Event.store i j) = L.count (Event.store i j) +
      if i0 ≤ i ∧ i < i0 + n ∧ j0 ≤ j ∧ j < j0 + m then q else 0) ∧
  L'.countP Event.isMulAdd = L.countP Event.isMulAdd + n * m * p

/-! ## Matrix access on square matrices -/

namespace Matrix

variable {α : Type u}

theorem IsSquare.row {N : Nat} {M : Matrix α} (hM : IsSquare N M) {i : Nat} (hi : i < N) :
    ∃ row, M[i]? = some row ∧ row.length = N := by
  have hlen : i < M.length := by rw [hM.1]; exact hi
  refine ⟨M[i], List.getElem?_eq_getElem hlen, hM.2 _ (List.getElem_mem hlen)⟩

theorem IsSquare.get? [Zero α] {N : Nat} {M : Matrix α} (hM : IsSquare N M) {i j : Nat}
    (hi : i < N) (hj : j < N) : M.get? i j = some (M.entry i j) := by
  obtain ⟨row, hrow, hlen⟩ := hM.row hi
  have hj' : j < row.length := by rw [hlen]; exact hj
  simp [Matrix.entry, Matrix.get?, hrow, List.getElem?_eq_getElem hj']

theorem IsSquare.set? [Zero α] {N : Nat} {M : Matrix α} (hM : IsSquare N M) {i j : Nat}
    (hi : i < N) (hj : j < N) (v : α) :
    ∃ M', M.set? i j v = some M' ∧ IsSquare N M' ∧
      ∀ i' j', M'.entry i' j' = if i' = i ∧ j' = j then v else M.entry i' j' := by
  obtain ⟨row, hrow, hlen⟩ := hM.row hi
  have hj' : j < row.length := by rw [hlen]; exact hj
  have hi' : i < M.length := by rw [hM.1]; exact hi
  refine ⟨M.set i (row.set j v), by simp [Matrix.set?, hrow, hj'], ⟨?_, ?_⟩, ?_⟩
  · simp [hM.1]
  · intro r hr
    rcases List.mem_or_eq_of_mem_set hr with h | h
    · exact hM.2 r h
    · rw [h, List.length_set]; exact hlen
  · intro i' j'
    by_cases hii : i' = i
    · subst hii
      by_cases hjj : j' = j
      · subst hjj
        simp [Matrix.entry, Matrix.get?, hi', hj']
      · have hne : ¬ j = j' := fun h => hjj h.symm
        simp [Matrix.entry, Matrix.get?, hi', hjj, hrow, List.getElem?_set, hne]
    · have hne : ¬ i = i' := fun h => hii h.symm
      simp [Matrix.entry, Matrix.get?, hii, List.getElem?_set, hne]

theorem IsSquare.ext [Zero α] {N : Nat} {M M' : Matrix α} (hM : IsSquare N M)
    (hM' : IsSquare N M')
    (h : ∀ i j, i < N → j < N → M.entry i j = M'.entry i j) : M = M' := by
  apply List.ext_getElem?
  intro i
  by_cases hi : i < N
  · obtain ⟨row, hrow, hlen⟩ := hM.row hi
    obtain ⟨row', hrow', hlen'⟩ := hM'.row hi
    rw [hrow, hrow']
    congr 1
    apply List.ext_getElem?
    intro j
    by_cases hj : j < N
    · have h1 := hM.get? hi hj
      have h2 := hM'.get? hi hj
      simp only [Matrix.get?, hrow, hrow'] at h1 h2
      rw [h1, h2, h i j hi hj]
    · have e1 : row[j]? = none := List.getElem?_eq_none (by omega)
      have e2 : row'[j]? = none := List.getElem?_eq_none (by omega)
      rw [e1, e2]
  · have e1 : M[i]? = none := List.getElem?_eq_none (by have := hM.1; omega)
    have e2 : M'[i]? = none := List.getElem?_eq_none (by have := hM'.1; omega)
    rw [e1, e2]

end Matrix

/-! ## Loop rules -/

section LoopRules

variable {σ : Type u}

theorem forRange_eq (lo hi : Nat) (body : Nat → σ → Outcome σ) :
    forRange lo hi body = forCount body (hi - lo) lo := rfl

/-- Invariant rule for a counted loop whose body always completes. -/
theorem forCount_done (P : Nat → σ → Prop) (body : Nat → σ → Outcome σ) :
    ∀ (n x : Nat) (s : σ), P x s →
      (∀ y t, x ≤ y → y < x + n → P y t → ∃ t', body y t = Outcome.done t' ∧ P (y + 1) t') →
      ∃ s', forCount body n x s = Outcome.done s' ∧ P (x + n) s'
  | 0, x, s, h0, _ => ⟨s, rfl, h0⟩
  | n + 1, x, s, h0, hstep => by
    obtain ⟨t, ht, hP⟩ := hstep x s (Nat.le_refl x) (by omega) h0
    obtain ⟨s', hs', hP'⟩ := forCount_done P body n (x + 1) t hP
      (fun y u hxy hyn hu => hstep y u (by omega) (by omega) hu)
    refine ⟨s', ?_, ?_⟩
    · simp only [forCount, ht, Outcome.andThen]
      exact hs'
    · have e : x + (n + 1) = x + 1 + n := by omega
      rw [e]; exact hP'

/-- Invariant rule for a block loop with positive stride `T` that runs over
exactly `m` blocks: a budget of `m` iterations is enough. -/
theorem forStep_done (P : Nat → σ → Prop) (body : Nat → σ → Outcome σ) (hi T : Nat)
    (hT : 0 < T) :
    ∀ (m fuel x : Nat) (s : σ), m ≤ fuel → hi = x + m * T → P x s →
      (∀ y t, y < hi → (∃ q, y = x + q * T) → P y t →
        ∃ t', body y t = Outcome.done t' ∧ P (y + T) t') →
      ∃ s', forStep hi T body fuel x s = Outcome.done s' ∧ P hi s'
  | 0, fuel, x, s, _, hhi, h0, _ => by
    have e : hi = x := by simpa using hhi
    refine ⟨s, ?_, e ▸ h0⟩
    cases fuel <;> simp [forStep, e]
  | m + 1, 0, _, _, hf, _, _, _ => absurd hf (by omega)
  | m + 1, fuel + 1, x, s, hf, hhi, h0, hstep => by
    have hlt : x < hi := by
      have : 0 < (m + 1) * T := Nat.mul_pos (by omega) hT
      omega
    obtain ⟨t, ht, hP⟩ := hstep x s hlt ⟨0, by simp⟩ h0
    obtain ⟨s', hs', hP'⟩ := forStep_done P body hi T hT m fuel (x + T) t (by omega)
      (by rw [hhi, Nat.succ_mul]; omega) hP
      (fun y u hy hq hu => by
        obtain ⟨q, hq⟩ := hq
        exact hstep y u hy ⟨q + 1, by rw [hq, Nat.succ_mul]; omega⟩ hu)
    refine ⟨s', ?_, hP'⟩
    simp only [forStep, hlt, if_true, ht, Outcome.andThen]
    exact hs'

end LoopRules

/-! ## Semantics of the element loops -/

section CellRules

variable {α : Type u} [Zero α] [Add α] [Mul α]

theorem foldCell_zero (A B : Matrix α) (i j lo : Nat) (acc : α) :
    foldCell A B i j lo 0 acc = acc := rfl

theorem foldCell_succ_left (A B : Matrix α) (i j lo n : Nat) (acc : α) :
    foldCell A B i j lo (n + 1) acc
      = foldCell A B i j (lo + 1) n (acc + A.entry i lo * B.entry lo j) := by
  simp [foldCell, List.range'_succ]

/-- Reductions over adjacent index ranges chain into one reduction. -/
theorem foldCell_append (A B : Matrix α) (i j : Nat) :
    ∀ (n lo m : Nat) (acc : α),
      foldCell A B i j (lo + n) m (foldCell A B i j lo n acc) = foldCell A B i j lo (n + m) acc
  | 0, lo, m, acc => by simp [foldCell_zero]
  | n + 1, lo, m, acc => by
    have e : n + 1 + m = (n + m) + 1 := by omega
    rw [e, foldCell_succ_left, foldCell_succ_left, ← foldCell_append A B i j n (lo + 1) m]
    congr 1; omega

/-- The `k` loop computes the left-to-right reduction when its indices are in range. -/
theorem kloop_done {N : Nat} {A B : Matrix α} (hA : A.IsSquare N) (hB : B.IsSquare N)
    {i j : Nat} (hi : i < N) (hj : j < N) :
    ∀ (n lo : Nat) (acc : α), lo + n ≤ N →
      forCount (mulAddStep A B i j) n lo acc = Outcome.done (foldCell A B i j lo n acc)
  | 0, lo, acc, _ => rfl
  | n + 1, lo, acc, h => by
    have hlo : lo < N := by omega
    rw [foldCell_succ_left, ← kloop_done hA hB hi hj n (lo + 1) _ (by omega)]
    simp [forCount, mulAddStep, hA.get? hi hlo, hB.get? hlo hj, Outcome.andThen]

omit [Add α] [Mul α] in
theorem storeCell_done {N : Nat} {C : Matrix α} (hC : C.IsSquare N) {i j : Nat}
    (hi : i < N) (hj : j < N) (h : Nat → Nat → α → α) (v : α) (hv : v = h i j (C.entry i j)) :
    ∃ C', storeCell C i j v = Outcome.done C' ∧ UpdatesRect N h i 1 j 1 C C' := by
  obtain ⟨C', hset, hsq, hent⟩ := hC.set? hi hj v
  refine ⟨C', by simp [storeCell, hset], hsq, ?_⟩
  intro i' j'
  rw [hent i' j']
  by_cases hc : i' = i ∧ j' = j
  · obtain ⟨h1, h2⟩ := hc
    subst h1; subst h2
    simp [hv]
  · have hc' : ¬ (i ≤ i' ∧ i' < i + 1 ∧ j ≤ j' ∧ j' < j + 1) := by
      intro hh; apply hc; constructor <;> omega
    rw [if_neg hc, if_neg hc']

/-- One cell of `baseline_matmul`: the cell is overwritten by the reduction from `0`. -/
theorem baselineCell_done {N : Nat} {A B C : Matrix α} (hA : A.IsSquare N)
    (hB : B.IsSquare N) (hC : C.IsSquare N) {i j : Nat} (hi : i < N) (hj : j < N) :
    ∃ C', baselineCell N A B i j C = Outcome.done C' ∧
      UpdatesRect N (fun i j _ => foldCell A B i j 0 N 0) i 1 j 1 C C' := by
  obtain ⟨C', h1, h2⟩ := storeCell_done hC hi hj (fun i j _ => foldCell A B i j 0 N 0)
    (foldCell A B i j 0 N 0) rfl
  refine ⟨C', ?_, h2⟩
  simp only [baselineCell, forRange, Nat.sub_zero,
    kloop_done hA hB hi hj N 0 0 (by omega), Outcome.within]
  exact h1

/-- One cell of one block of `tiled_matmul`: the reduction over the block's `k`
range is added to the cell. -/
theorem tiledCell_done {N T : Nat} {A B C : Matrix α} (hA : A.IsSquare N)
    (hB : B.IsSquare N) (hC : C.IsSquare N) {kk i j : Nat} (hk : kk + T ≤ N)
    (hi : i < N) (hj : j < N) :
    ∃ C', tiledCell T A B kk i j C = Outcome.done C' ∧
      UpdatesRect N (fun i j c => foldCell A B i j kk T c) i 1 j 1 C C' := by
  obtain ⟨C', h1, h2⟩ := storeCell_done hC hi hj (fun i j c => foldCell A B i j kk T c)
    (foldCell A B i j kk T (C.entry i j)) rfl
  refine ⟨C', ?_, h2⟩
  simp only [tiledCell, hC.get? hi hj, forRange, Nat.add_sub_cancel_left,
    kloop_done hA hB hi hj T kk _ hk, Outcome.within]
  exact h1

end CellRules

/-! ## Composition of rectangle updates -/

section RectRules

variable {α : Type u} [Zero α]

theorem UpdatesRect.empty_rows {N : Nat} (h : Nat → Nat → α → α) (i0 j0 m : Nat)
    {C : Matrix α} (hC : C.IsSquare N) : UpdatesRect N h i0 0 j0 m C C :=
  ⟨hC, fun i j => by
    have hc : ¬ (i0 ≤ i ∧ i < i0 + 0 ∧ j0 ≤ j ∧ j < j0 + m) := by omega
    rw [if_neg hc]⟩

theorem UpdatesRect.empty_cols {N : Nat} (h : Nat → Nat → α → α) (i0 n j0 : Nat)
    {C : Matrix α} (hC : C.IsSquare N) : UpdatesRect N h i0 n j0 0 C C :=
  ⟨hC, fun i j => by
    have hc : ¬ (i0 ≤ i ∧ i < i0 + n ∧ j0 ≤ j ∧ j < j0 + 0) := by omega
    rw [if_neg hc]⟩

/-- Two updates of column ranges that follow each other make one update. -/
theorem UpdatesRect.hcat {N : Nat} {h : Nat → Nat → α → α} {i0 n j0 m m' : Nat}
    {C C1 C2 : Matrix α} (h1 : UpdatesRect N h i0 n j0 m C C1)
    (h2 : UpdatesRect N h i0 n (j0 + m) m' C1 C2) :
    UpdatesRect N h i0 n j0 (m + m') C C2 := by
  refine ⟨h2.1, fun i j => ?_⟩
  rw [h2.2 i j, h1.2 i j]
  by_cases ha : i0 ≤ i ∧ i < i0 + n ∧ j0 ≤ j ∧ j < j0 + m
  · have hb : ¬ (i0 ≤ i ∧ i < i0 + n ∧ j0 + m ≤ j ∧ j < j0 + m + m') := by omega
    have hc : i0 ≤ i ∧ i < i0 + n ∧ j0 ≤ j ∧ j < j0 + (m + m') := by omega
    rw [if_neg hb, if_pos ha, if_pos hc]
  · by_cases hb : i0 ≤ i ∧ i < i0 + n ∧ j0 + m ≤ j ∧ j < j0 + m + m'
    · have hc : i0 ≤ i ∧ i < i0 + n ∧ j0 ≤ j ∧ j < j0 + (m + m') := by omega
      rw [if_pos hb, if_neg ha, if_pos hc]
    · have hc : ¬ (i0 ≤ i ∧ i < i0 + n ∧ j0 ≤ j ∧ j < j0 + (m + m')) := by omega
      rw [if_neg hb, if_neg ha, if_neg hc]

/-- Two updates of row ranges that follow each other make one update. -/
theorem UpdatesRect.vcat {N : Nat} {h : Nat → Nat → α → α} {i0 n n' j0 m : Nat}
    {C C1 C2 : Matrix α} (h1 : UpdatesRect N h i0 n j0 m C C1)
    (h2 : UpdatesRect N h (i0 + n) n' j0 m C1 C2) :
    UpdatesRect N h i0 (n + n') j0 m C C2 := by
  refine ⟨h2.1, fun i j => ?_⟩
  rw [h2.2 i j, h1.2 i j]
  by_cases ha : i0 ≤ i ∧ i < i0 + n ∧ j0 ≤ j ∧ j < j0 + m
  · have hb : ¬ (i0 + n ≤ i ∧ i < i0 + n + n' ∧ j0 ≤ j ∧ j < j0 + m) := by omega
    have hc : i0 ≤ i ∧ i < i0 + (n + n') ∧ j0 ≤ j ∧ j < j0 + m := by omega
    rw [if_neg hb, if_pos ha, if_pos hc]
  · by_cases hb : i0 + n ≤ i ∧ i < i0 + n + n' ∧ j0 ≤ j ∧ j < j0 + m
    · have hc : i0 ≤ i ∧ i < i0 + (n + n') ∧ j0 ≤ j ∧ j < j0 + m := by omega
      rw [if_pos hb, if_neg ha, if_pos hc]
    · have hc : ¬ (i0 ≤ i ∧ i < i0 + (n + n') ∧ j0 ≤ j ∧ j < j0 + m) := by omega
      rw [if_neg hb, if_neg ha, if_neg hc]

/-- Two updates of the same rectangle, one after the other, compose. -/
theorem UpdatesRect.seq {N : Nat} {h1 h2 h : Nat → Nat → α → α} {i0 n j0 m : Nat}
    {C C1 C2 : Matrix α} (u1 : UpdatesRect N h1 i0 n j0 m C C1)
    (u2 : UpdatesRect N h2 i0 n j0 m C1 C2)
    (hh : ∀ i j c, h2 i j (h1 i j c) = h i j c) :
    UpdatesRect N h i0 n j0 m C C2 := by
  refine ⟨u2.1, fun i j => ?_⟩
  rw [u2.2 i j, u1.2 i j]
  by_cases ha : i0 ≤ i ∧ i < i0 + n ∧ j0 ≤ j ∧ j < j0 + m
  · rw [if_pos ha, if_pos ha, if_pos ha, hh]
  · rw [if_neg ha, if_neg ha, if_neg ha]

/-- Rule for the two element loops over rows `i0 .. i0+n-1` and columns
`j0 .. j0+m-1` when the body updates the single cell `(i, j)`. -/
theorem rectLoop_done {N : Nat} (h : Nat → Nat → α → α)
    (cell : Nat → Nat → Matrix α → Outcome (Matrix α)) (i0 n j0 m : Nat)
    (hn : i0 + n ≤ N) (hm : j0 + m ≤ N)
    (hcell : ∀ i j (C : Matrix α), i < N → j < N → C.IsSquare N →
      ∃ C', cell i j C = Outcome.done C' ∧ UpdatesRect N h i 1 j 1 C C')
    (C : Matrix α) (hC : C.IsSquare N) :
    ∃ C', forCount (fun i => forCount (fun j => cell i j) m j0) n i0 C = Outcome.done C' ∧
      UpdatesRect N h i0 n j0 m C C' := by
  have hrow : ∀ i (D : Matrix α), i < N → D.IsSquare N →
      ∃ D', forCount (fun j => cell i j) m j0 D = Outcome.done D' ∧
        UpdatesRect N h i 1 j0 m D D' := by
    intro i D hi hD
    have key := forCount_done (fun y E => UpdatesRect N h i 1 j0 (y - j0) D E)
      (fun j => cell i j) m j0 D (by simpa using UpdatesRect.empty_cols h i 1 j0 hD)
      (fun y E hy1 hy2 hE => by
        obtain ⟨E', e1, e2⟩ := hcell i y E hi (by omega) hE.1
        refine ⟨E', e1, ?_⟩
        have e3 : y = j0 + (y - j0) := by omega
        rw [e3] at e2
        have e4 : y + 1 - j0 = (y - j0) + 1 := by omega
        show UpdatesRect N h i 1 j0 (y + 1 - j0) D E'
        rw [e4]
        exact UpdatesRect.hcat hE e2)
    simpa using key
  have key := forCount_done (fun y E => UpdatesRect N h i0 (y - i0) j0 m C E)
    (fun i => forCount (fun j => cell i j) m j0) n i0 C
    (by simpa using UpdatesRect.empty_rows h i0 j0 m hC)
    (fun y E hy1 hy2 hE => by
      obtain ⟨E', e1, e2⟩ := hrow y E (by omega) hE.1
      refine ⟨E', e1, ?_⟩
      have e3 : y = i0 + (y - i0) := by omega
      rw [e3] at e2
      have e4 : y + 1 - i0 = (y - i0) + 1 := by omega
      show UpdatesRect N h i0 (y + 1 - i0) j0 m C E'
      rw [e4]
      exact UpdatesRect.vcat hE e2)
  simpa using key

end RectRules

/-! ## Semantics of the kernels -/

section KernelRules

variable {α : Type u} [Zero α] [Add α] [Mul α]

/-- The kernel `baseline_matmul` completes on square matrices and overwrites every cell
with the reduction started from `0`. -/
theorem baseline_matmul_updates {N : Nat} {A B C : Matrix α} (hA : A.IsSquare N)
    (hB : B.IsSquare N) (hC : C.IsSquare N) :
    ∃ C', baseline_matmul N A B C = Outcome.done C' ∧
      UpdatesRect N (fun i j _ => foldCell A B i j 0 N 0) 0 N 0 N C C' := by
  have key := rectLoop_done (fun i j _ => foldCell A B i j 0 N 0)
    (baselineCell N A B) 0 N 0 N (by omega) (by omega)
    (fun i j D hi hj hD => baselineCell_done hA hB hD hi hj) C hC
  simpa [baseline_matmul, forRange_eq] using key

/-- The element loops of one block complete when the block lies inside the matrix. -/
theorem tiledBlock_done {N T : Nat} {A B C : Matrix α} (hA : A.IsSquare N)
    (hB : B.IsSquare N) (hC : C.IsSquare N) {ii jj kk : Nat} (hii : ii + T ≤ N)
    (hjj : jj + T ≤ N) (hkk : kk + T ≤ N) :
    ∃ C', tiledBlock T A B ii jj kk C = Outcome.done C' ∧
      UpdatesRect N (fun i j c => foldCell A B i j kk T c) ii T jj T C C' := by
  have key := rectLoop_done (fun i j c => foldCell A B i j kk T c)
    (tiledCell T A B kk) ii T jj T hii hjj
    (fun i j D hi hj hD => tiledCell_done hA hB hD hkk hi hj) C hC
  simpa [tiledBlock, forRange_eq] using key

theorem block_fits {T m y : Nat} (hy : y < m * T) (hq : ∃ q, y = 0 + q * T) :
    y + T ≤ m * T := by
  obtain ⟨q, rfl⟩ := hq
  have hqm : q < m := by
    rw [Nat.zero_add] at hy
    exact Nat.lt_of_mul_lt_mul_right hy
  have : (q + 1) * T ≤ m * T := Nat.mul_le_mul_right T hqm
  rw [Nat.succ_mul] at this
  omega

/-- The `kk` loop of one `(ii, jj)` tile adds the whole reduction to each cell
of the tile. -/
theorem kkLoop_done {N T m fuel : Nat} {A B C : Matrix α} (hA : A.IsSquare N)
    (hB : B.IsSquare N) (hC : C.IsSquare N) (hT : 0 < T) (hN : N = m * T) (hf : m ≤ fuel)
    {ii jj : Nat} (hii : ii + T ≤ N) (hjj : jj + T ≤ N) :
    ∃ C', forStep N T (fun kk => tiledBlock T A B ii jj kk) fuel 0 C = Outcome.done C' ∧
      UpdatesRect N (fun i j c => foldCell A B i j 0 N c) ii T jj T C C' := by
  refine forStep_done (fun y E => UpdatesRect N (fun i j c => foldCell A B i j 0 y c) ii T jj T C E)
    _ N T hT m fuel 0 C hf (by omega) ⟨hC, fun i j => by simp [foldCell_zero]⟩ ?_
  intro y E hy hq hE
  have hfit : y + T ≤ N := by rw [hN] at hy ⊢; exact block_fits hy hq
  obtain ⟨E', e1, e2⟩ := tiledBlock_done hA hB hE.1 hii hjj hfit
  refine ⟨E', e1, UpdatesRect.seq hE e2 ?_⟩
  intro i j c
  have := foldCell_append A B i j y 0 T c
  simpa using this

/-- The `jj` loop of one row of tiles. -/
theorem jjLoop_done {N T m fuel : Nat} {A B C : Matrix α} (hA : A.IsSquare N)
    (hB : B.IsSquare N) (hC : C.IsSquare N) (hT : 0 < T) (hN : N = m * T) (hf : m ≤ fuel)
    {ii : Nat} (hii : ii + T ≤ N) :
    ∃ C', forStep N T (fun jj =>
        forStep N T (fun kk => tiledBlock T A B ii jj kk) fuel 0) fuel 0 C = Outcome.done C' ∧
      UpdatesRect N (fun i j c => foldCell A B i j 0 N c) ii T 0 N C C' := by
  refine forStep_done (fun y E => UpdatesRect N (fun i j c => foldCell A B i j 0 N c) ii T 0 y C E)
    _ N T hT m fuel 0 C hf (by omega) (UpdatesRect.empty_cols _ ii T 0 hC) ?_
  intro y E hy hq hE
  have hfit : y + T ≤ N := by rw [hN] at hy ⊢; exact block_fits hy hq
  obtain ⟨E', e1, e2⟩ := kkLoop_done hA hB hE.1 hT hN hf hii hfit
  refine ⟨E', e1, UpdatesRect.hcat hE ?_⟩
  rw [Nat.zero_add]; exact e2

/-- Semantics of `tiled_matmul`: when the block size is positive and divides
the dimension, the kernel completes within the budget and adds the whole
reduction to every cell. -/
theorem tiled_matmul_updates {N T fuel : Nat} {A B C : Matrix α} (hA : A.IsSquare N)
    (hB : B.IsSquare N) (hC : C.IsSquare N) (hT : 0 < T) (hdvd : T ∣ N) (hf : N / T ≤ fuel) :
    ∃ C', tiled_matmul fuel N T A B C = Outcome.done C' ∧
      UpdatesRect N (fun i j c => foldCell A B i j 0 N c) 0 N 0 N C C' := by
  have hN : N = (N / T) * T := (Nat.div_mul_cancel hdvd).symm
  refine forStep_done (fun y E => UpdatesRect N (fun i j c => foldCell A B i j 0 N c) 0 y 0 N C E)
    _ N T hT (N / T) fuel 0 C hf (by omega) (UpdatesRect.empty_rows _ 0 0 N hC) ?_
  intro y E hy hq hE
  have hfit : y + T ≤ N := by
    have hy' : y < (N / T) * T := by rw [← hN]; exact hy
    rw [hN]; exact block_fits hy' hq
  obtain ⟨E', e1, e2⟩ := jjLoop_done hA hB hE.1 hT hN hf hfit
  refine ⟨E', e1, UpdatesRect.vcat hE ?_⟩
  rw [Nat.zero_add]; exact e2

omit [Add α] [Mul α] in
/-- Reading a cell of a full update. -/
theorem UpdatesRect.entry_full {N : Nat} {h : Nat → Nat → α → α} {C C' : Matrix α}
    (hu : UpdatesRect N h 0 N 0 N C C') {i j : Nat} (hi : i < N) (hj : j < N) :
    C'.get? i j = some (h i j (C.entry i j)) := by
  rw [hu.1.get? hi hj, hu.2 i j]
  have hc : 0 ≤ i ∧ i < 0 + N ∧ 0 ≤ j ∧ j < 0 + N := by omega
  rw [if_pos hc]

end KernelRules

/-! ## Exact arithmetic -/

section Exact

variable {α : Type u} [Semiring α]

/-- In a semiring the left-to-right reduction is the accumulator plus the sum
of the products. -/
theorem foldCell_eq_sum (A B : Matrix α) (i j : Nat) :
    ∀ (n lo : Nat) (acc : α),
      foldCell A B i j lo n acc
        = acc + ∑ k in Finset.range n, A.entry i (lo + k) * B.entry (lo + k) j
  | 0, lo, acc => by simp [foldCell_zero]
  | n + 1, lo, acc => by
    rw [foldCell_succ_left, foldCell_eq_sum A B i j n (lo + 1), Finset.sum_range_succ', add_assoc]
    congr 1
    rw [add_comm]
    congr 1
    apply Finset.sum_congr rfl
    intro k _
    have e : lo + 1 + k = lo + (k + 1) := by omega
    rw [e]

theorem foldCell_zero_eq_sum (A B : Matrix α) (i j N : Nat) (acc : α) :
    foldCell A B i j 0 N acc = acc + ∑ k in Finset.range N, A.entry i k * B.entry k j := by
  rw [foldCell_eq_sum]
  simp

end Exact

/-! ## Initialization -/

section InitRules

variable {α : Type u}

theorem initialize_matrix_isSquare (N : Nat) (M : Matrix α) (val : α) :
    (initialize_matrix N M val).IsSquare N := by
  refine ⟨by simp [initialize_matrix], ?_⟩
  intro row hrow
  rw [initialize_matrix, List.mem_replicate] at hrow
  rw [hrow.2, List.length_replicate]

theorem initialize_matrix_get? (N : Nat) (M : Matrix α) (val : α) {i j : Nat}
    (hi : i < N) (hj : j < N) : (initialize_matrix N M val).get? i j = some val := by
  simp [initialize_matrix, Matrix.get?, List.getElem?_replicate, hi, hj]

theorem initialize_matrix_entry [Zero α] (N : Nat) (M : Matrix α) (val : α) {i j : Nat}
    (hi : i < N) (hj : j < N) : (initialize_matrix N M val).entry i j = val := by
  simp [Matrix.entry, initialize_matrix_get? N M val hi hj]

end InitRules

/-! ## Verified properties of the kernels -/

section KernelClaims

/-- C2: for every block size `T ≥ 1`, every `N` divisible by `T`, all `N×N`
matrices `A`, `B` and every initial `N×N` output `C0`, `tiled_matmul` (with a
loop budget of at least `N / T`) completes with an `N×N` matrix `C` in which
every cell `(i, j)` with `i, j < N` holds `C0[i][j] + Σ_{k<N} A[i][k] * B[k][j]`;
when `C0` is zero everywhere the cell holds exactly the product. -/
theorem tiled_matmul_accumulates {α : Type u} [Semiring α] (fuel N T : Nat)
    (A B C0 : Matrix α) (hT : 1 ≤ T) (hdvd : T ∣ N) (hfuel : N / T ≤ fuel)
    (hA : A.IsSquare N) (hB : B.IsSquare N) (hC : C0.IsSquare N) :
    ∃ C, tiled_matmul fuel N T A B C0 = Outcome.done C ∧ C.IsSquare N ∧
      (∀ i j, i < N → j < N →
        C.get? i j = some (C0.entry i j + ∑ k in Finset.range N, A.entry i k * B.entry k j)) ∧
      ((∀ i j, i < N → j < N → C0.entry i j = 0) →
        ∀ i j, i < N → j < N →
          C.get? i j = some (∑ k in Finset.range N, A.entry i k * B.entry k j)) := by
  obtain ⟨C, hrun, hupd⟩ := tiled_matmul_updates hA hB hC hT hdvd hfuel
  have hcell : ∀ i j, i < N → j < N →
      C.get? i j = some (C0.entry i j + ∑ k in Finset.range N, A.entry i k * B.entry k j) := by
    intro i j hi hj
    rw [hupd.entry_full hi hj, foldCell_zero_eq_sum]
  refine ⟨C, hrun, hupd.1, hcell, ?_⟩
  intro hzero i j hi hj
  rw [hcell i j hi hj, hzero i j hi hj, zero_add]

/-- Witness for C2: 2×2 integer matrices, block size 1, a non-zero initial output. -/
theorem tiled_matmul_accumulates_witness :
    1 ≤ 1 ∧ 1 ∣ 2 ∧ 2 / 1 ≤ 2 ∧
    ∃ C, tiled_matmul 2 2 1 [[1, 2], [3, 4]] [[5, 6], [7, 8]] [[9, 0], [0, 9]] = Outcome.done C ∧
      C.IsSquare 2 ∧
      (∀ i j, i < 2 → j < 2 →
        C.get? i j = some (Matrix.entry ([[9, 0], [0, 9]] : Matrix ℤ) i j +
          ∑ k in Finset.range 2,
            Matrix.entry ([[1, 2], [3, 4]] : Matrix ℤ) i k * Matrix.entry [[5, 6], [7, 8]] k j)) ∧
      ((∀ i j, i < 2 → j < 2 → Matrix.entry ([[9, 0], [0, 9]] : Matrix ℤ) i j = 0) →
        ∀ i j, i < 2 → j < 2 →
          C.get? i j = some (∑ k in Finset.range 2,
            Matrix.entry ([[1, 2], [3, 4]] : Matrix ℤ) i k * Matrix.entry [[5, 6], [7, 8]] k j)) :=
  ⟨by decide, by decide, by decide,
    tiled_matmul_accumulates 2 2 1 [[1, 2], [3, 4]] [[5, 6], [7, 8]] [[9, 0], [0, 9]]
      (by decide) (by decide) (by decide) (by decide) (by decide) (by decide)⟩

/-- C3: for every block size `T ≥ 1`, every `N` divisible by `T` and all `N×N`
matrices `A` and `B`, `tiled_matmul` started from the all-zero output (with a
loop budget of at least `N / T`) and `baseline_matmul` started from any `N×N`
output both complete, and with the same matrix.  Only `0`, `+` and `*` of the
element type are used; no law of arithmetic is assumed. -/
theorem tiled_matmul_agrees_with_baseline {α : Type u} [Zero α] [Add α] [Mul α]
    (fuel N T : Nat) (A B M C1 : Matrix α) (hT : 1 ≤ T) (hdvd : T ∣ N)
    (hfuel : N / T ≤ fuel) (hA : A.IsSquare N) (hB : B.IsSquare N) (hC1 : C1.IsSquare N) :
    ∃ C, tiled_matmul fuel N T A B (initialize_matrix N M 0) = Outcome.done C ∧
      baseline_matmul N A B C1 = Outcome.done C ∧ C.IsSquare N ∧
      ∀ i j, i < N → j < N → ∃ c, C.get? i j = some c := by
  obtain ⟨C, hrun, hupd⟩ :=
    tiled_matmul_updates hA hB (initialize_matrix_isSquare N M 0) hT hdvd hfuel
  obtain ⟨D, hrunD, hupdD⟩ := baseline_matmul_updates hA hB hC1
  have hDC : D = C := by
    apply hupdD.1.ext hupd.1
    intro i j hi hj
    have h1 := hupdD.entry_full hi hj
    have h2 := hupd.entry_full hi hj
    rw [hupdD.1.get? hi hj] at h1
    rw [hupd.1.get? hi hj, initialize_matrix_entry N M 0 hi hj] at h2
    exact (Option.some.inj h1).trans (Option.some.inj h2).symm
  refine ⟨C, hrun, by rw [hrunD, hDC], hupd.1, ?_⟩
  intro i j hi hj
  exact ⟨_, hupd.1.get? hi hj⟩

/-- Witness for C3: the single-tile case `N = 32`, `T = 32`, on two integer
matrices with entries `2i + j` and `i - 3j`. -/
theorem tiled_matmul_agrees_with_baseline_witness :
    1 ≤ 32 ∧ 32 ∣ 32 ∧ 32 / 32 ≤ 1 ∧
    ∃ C, tiled_matmul 1 32 32
        ((List.range 32).map fun i => (List.range 32).map fun j => (2 * i + j : ℤ))
        ((List.range 32).map fun i => (List.range 32).map fun j => (i - 3 * j : ℤ))
        (initialize_matrix 32 [] 0) = Outcome.done C ∧
      baseline_matmul 32
        ((List.range 32).map fun i => (List.range 32).map fun j => (2 * i + j : ℤ))
        ((List.range 32).map fun i => (List.range 32).map fun j => (i - 3 * j : ℤ))
        (initialize_matrix 32 [] 7) = Outcome.done C ∧
      C.IsSquare 32 ∧ ∀ i j, i < 32 → j < 32 → ∃ c, C.get? i j = some c :=
  ⟨by decide, by decide, by decide,
    tiled_matmul_agrees_with_baseline 1 32 32 _ _ [] (initialize_matrix 32 [] 7)
      (by decide) (by decide) (by decide) (by decide) (by decide)
      (initialize_matrix_isSquare 32 [] 7)⟩

theorem main_C_base (fuel N T : Nat) (nb nt : Int) :
    (main fuel N T nb nt).C_base
      = baseline_matmul N (initialize_matrix N [] 2) (initialize_matrix N [] 3)
          (initialize_matrix N [] 0) := rfl

theorem main_C_tiled (fuel N T : Nat) (nb nt : Int) :
    (main fuel N T nb nt).C_tiled
      = tiled_matmul fuel N T (initialize_matrix N [] 2) (initialize_matrix N [] 3)
          (initialize_matrix N [] 0) := rfl

/-- The dot product of a constant row and a constant column. -/
theorem uniform_sum {α : Type u} [Semiring α] (N : Nat) (a b : α) (MA MB : Matrix α)
    {i j : Nat} (hi : i < N) (hj : j < N) :
    ∑ k in Finset.range N,
        (initialize_matrix N MA a).entry i k * (initialize_matrix N MB b).entry k j
      = a * b * (N : α) := by
  have hterm : ∀ k ∈ Finset.range N,
      (initialize_matrix N MA a).entry i k * (initialize_matrix N MB b).entry k j = a * b := by
    intro k hk
    have hk' : k < N := Finset.mem_range.mp hk
    rw [initialize_matrix_entry N MA a hi hk', initialize_matrix_entry N MB b hk' hj]
  rw [Finset.sum_congr rfl hterm, Finset.sum_const, Finset.card_range, nsmul_eq_mul]
  exact (Nat.cast_commute N (a * b)).eq

end KernelClaims

/-! ## Runs that leave the matrix -/

section FaultRules

variable {σ : Type u}

/-- Rule for a block loop with stride `T` whose first `m` iterations complete
and whose next iteration stops at an out-of-range index. -/
theorem forStep_outOfBounds (P : Nat → σ → Prop) (Q : σ → Prop)
    (body : Nat → σ → Outcome σ) (hi T : Nat) :
    ∀ (m fuel x : Nat) (s : σ), m < fuel → x + m * T < hi → P x s →
      (∀ y t, y + T ≤ x + m * T → (∃ q, y = x + q * T) → P y t →
        ∃ t', body y t = Outcome.done t' ∧ P (y + T) t') →
      (∀ t, P (x + m * T) t → ∃ t', body (x + m * T) t = Outcome.outOfBounds t' ∧ Q t') →
      ∃ s', forStep hi T body fuel x s = Outcome.outOfBounds s' ∧ Q s'
  | _, 0, _, _, hf, _, _, _, _ => absurd hf (by omega)
  | 0, fuel + 1, x, s, _, hlt, h0, _, hlast => by
    have hx : x < hi := by simpa using hlt
    obtain ⟨t', ht', hQ⟩ := hlast s (by simpa using h0)
    refine ⟨t', ?_, hQ⟩
    have ht'' : body x s = Outcome.outOfBounds t' := by simpa using ht'
    simp [forStep, hx, ht'', Outcome.andThen]
  | m + 1, fuel + 1, x, s, hf, hlt, h0, hstep, hlast => by
    have e : x + (m + 1) * T = x + T + m * T := by rw [Nat.succ_mul]; omega
    have hx : x < hi := by omega
    obtain ⟨t, ht, hP⟩ := hstep x s (by omega) ⟨0, by simp⟩ h0
    obtain ⟨s', hs', hQ⟩ := forStep_outOfBounds P Q body hi T m fuel (x + T) t (by omega)
      (by omega) hP
      (fun y u hy hq hu => by
        obtain ⟨q, hq⟩ := hq
        exact hstep y u (by omega) ⟨q + 1, by rw [hq, Nat.succ_mul]; omega⟩ hu)
      (fun u hu => by
        rw [← e]
        exact hlast u (by rw [e]; exact hu))
    refine ⟨s', ?_, hQ⟩
    simp only [forStep, hx, if_true, ht, Outcome.andThen]
    exact hs'

variable {α : Type u}

theorem Matrix.IsSquare.get?_col_none {N : Nat} {M : Matrix α} (hM : M.IsSquare N) (i : Nat)
    {k : Nat} (hk : N ≤ k) : M.get? i k = none := by
  by_cases hi : i < N
  · obtain ⟨row, hrow, hlen⟩ := hM.row hi
    have e : row[k]? = none := List.getElem?_eq_none (by omega)
    simp [Matrix.get?, hrow, e]
  · have e : M[i]? = none := List.getElem?_eq_none (by have := hM.1; omega)
    simp [Matrix.get?, e]

variable [Zero α] [Add α] [Mul α]

/-- A `k` loop whose range runs past `N` stops at the read of `A[i][N]`. -/
theorem kloop_outOfBounds {N : Nat} {A B : Matrix α} (hA : A.IsSquare N) (hB : B.IsSquare N)
    {i j : Nat} (hi : i < N) (hj : j < N) :
    ∀ (n lo : Nat) (acc : α), lo ≤ N → N < lo + n →
      ∃ acc', forCount (mulAddStep A B i j) n lo acc = Outcome.outOfBounds acc'
  | 0, lo, acc, h1, h2 => absurd h2 (by omega)
  | n + 1, lo, acc, h1, h2 => by
    by_cases hlo : lo < N
    · obtain ⟨acc', h⟩ := kloop_outOfBounds hA hB hi hj n (lo + 1)
        (acc + A.entry i lo * B.entry lo j) (by omega) (by omega)
      refine ⟨acc', ?_⟩
      simp only [forCount, mulAddStep, hA.get? hi hlo, hB.get? hlo hj, Outcome.andThen]
      exact h
    · refine ⟨acc, ?_⟩
      simp [forCount, mulAddStep, hA.get?_col_none i (Nat.le_of_not_lt hlo), Outcome.andThen]

/-- The element loops of a block at the origin of the output whose `k` range
runs past `N` stop before any cell of the block is written. -/
theorem tiledBlock_outOfBounds {N T : Nat} {A B C : Matrix α} (hA : A.IsSquare N)
    (hB : B.IsSquare N) (hC : C.IsSquare N) (hT : 0 < T) (hN : 0 < N) {kk : Nat}
    (h1 : kk ≤ N) (h2 : N < kk + T) :
    tiledBlock T A B 0 0 kk C = Outcome.outOfBounds C := by
  obtain ⟨acc', hk⟩ := kloop_outOfBounds hA hB hN hN T kk (C.entry 0 0) h1 h2
  have hcell : tiledCell T A B kk 0 0 C = Outcome.outOfBounds C := by
    simp only [tiledCell, hC.get? hN hN, forRange, Nat.add_sub_cancel_left, hk, Outcome.within]
  obtain ⟨T', rfl⟩ : ∃ T', T = T' + 1 := ⟨T - 1, by omega⟩
  simp only [tiledBlock, forRange_eq, Nat.zero_add, Nat.sub_zero, forCount, hcell,
    Outcome.andThen]

/-- With a positive block size that does not divide `N`, `tiled_matmul` on
square matrices stops at an out-of-range index, in the first `(ii, jj)` tile,
once the budget allows the `kk` loop to reach the block that overlaps `N`. -/
theorem tiled_matmul_outOfBounds {N T fuel : Nat} {A B C : Matrix α} (hA : A.IsSquare N)
    (hB : B.IsSquare N) (hC : C.IsSquare N) (hT : 0 < T) (hnd : ¬ T ∣ N)
    (hf : N / T < fuel) :
    ∃ C', tiled_matmul fuel N T A B C = Outcome.outOfBounds C' ∧ C'.IsSquare N := by
  have hN : 0 < N := by
    rcases Nat.eq_zero_or_pos N with h | h
    · exact absurd (h ▸ Nat.dvd_zero T) hnd
    · exact h
  have hmod : 0 < N % T := by
    rcases Nat.eq_zero_or_pos (N % T) with h | h
    · exact absurd (Nat.dvd_of_mod_eq_zero h) hnd
    · exact h
  have hdiv : N / T * T + N % T = N := by
    rw [Nat.mul_comm]; exact Nat.div_add_mod N T
  have hlt : N % T < T := Nat.mod_lt N hT
  have hfuel1 : 0 < fuel := Nat.lt_of_le_of_lt (Nat.zero_le _) hf
  have hkk : ∀ D : Matrix α, D.IsSquare N →
      ∃ D', forStep N T (fun kk => tiledBlock T A B 0 0 kk) fuel 0 D = Outcome.outOfBounds D' ∧
        D'.IsSquare N := by
    intro D hD
    refine forStep_outOfBounds (fun _ E => Matrix.IsSquare N E) (fun E => Matrix.IsSquare N E)
      _ N T (N / T) fuel 0 D hf (by omega) hD ?_ ?_
    · intro y E hy _ hE
      obtain ⟨E', e1, e2⟩ := tiledBlock_done hA hB hE (by omega : 0 + T ≤ N)
        (by omega : 0 + T ≤ N) (by omega : y + T ≤ N)
      exact ⟨E', e1, e2.1⟩
    · intro E hE
      exact ⟨E, tiledBlock_outOfBounds hA hB hE hT hN (by omega) (by omega), hE⟩
  have hjj : ∀ D : Matrix α, D.IsSquare N →
      ∃ D', forStep N T (fun jj =>
          forStep N T (fun kk => tiledBlock T A B 0 jj kk) fuel 0) fuel 0 D
            = Outcome.outOfBounds D' ∧ D'.IsSquare N := by
    intro D hD
    refine forStep_outOfBounds (fun _ E => Matrix.IsSquare N E) (fun E => Matrix.IsSquare N E)
      _ N T 0 fuel 0 D hfuel1 (by omega) hD (fun y E hy _ _ => absurd hy (by omega)) ?_
    intro E hE
    simpa using hkk E hE
  refine forStep_outOfBounds (fun _ E => Matrix.IsSquare N E) (fun E => Matrix.IsSquare N E)
    _ N T 0 fuel 0 C hfuel1 (by omega) hC (fun y E hy _ _ => absurd hy (by omega)) ?_
  intro E hE
  simpa using hjj E hE

end FaultRules

/-! ## Verified properties of initialization, configuration and the harness -/

section HarnessClaims

/-- C4 does not hold as stated.  At `N = 3`, `T = 2` (3 is not a multiple of 2)
`main` does run `tiled_matmul`: the kernel adds the first `kk` block into the
four cells of the first tile, then stops at the read of `A[0][3]`.  The output
is no longer the all-zero matrix `main` started from, and the cells outside
the first tile are still `0`. -/
theorem nondivisible_configuration_is_run :
    ¬ (2 ∣ 3) ∧
    (main 3 3 2 1 1).C_tiled
      = Outcome.outOfBounds [[12, 12, 0], [12, 12, 0], [0, 0, 0]] ∧
    (main 3 3 2 1 1).C_tiled ≠ Outcome.outOfBounds (initialize_matrix 3 [] 0) ∧
    (main 3 3 2 1 1).C_tiled ≠ Outcome.done (initialize_matrix 3 [] 0) := by
  have hrun : (main 3 3 2 1 1).C_tiled
      = Outcome.outOfBounds [[12, 12, 0], [12, 12, 0], [0, 0, 0]] := by
    simp [main, tiled_matmul, forStep, tiledBlock, forRange, forCount, tiledCell, mulAddStep,
      storeCell, Matrix.get?, Matrix.set?, initialize_matrix, Outcome.andThen, Outcome.within,
      List.replicate]
    norm_num
  refine ⟨by decide, hrun, ?_, ?_⟩
  · rw [hrun]
    simp [initialize_matrix, List.replicate]
  · rw [hrun]
    simp

/-- C4, amended: `main` has no divisibility check.  For every block size
`T ≥ 1` and every `N` that is not a multiple of `T`, `main` runs both kernels:
`baseline_matmul` completes with an `N×N` matrix, and `tiled_matmul` is entered
and, with a loop budget above `N / T`, stops inside the kernel at an index out
of range, in an `N×N` output state; it does not complete. -/
theorem main_runs_tiled_unchecked (fuel N T : Nat) (nb nt : Int) (hT : 1 ≤ T)
    (hnd : ¬ T ∣ N) (hfuel : N / T < fuel) :
    (∃ Cb, (main fuel N T nb nt).C_base = Outcome.done Cb ∧ Cb.IsSquare N) ∧
    (∃ Ct, (main fuel N T nb nt).C_tiled = Outcome.outOfBounds Ct ∧ Ct.IsSquare N) ∧
    ∀ C, (main fuel N T nb nt).C_tiled ≠ Outcome.done C := by
  have hA := initialize_matrix_isSquare N ([] : Matrix ℚ) 2
  have hB := initialize_matrix_isSquare N ([] : Matrix ℚ) 3
  have hC := initialize_matrix_isSquare N ([] : Matrix ℚ) 0
  obtain ⟨Cb, hb, ub⟩ := baseline_matmul_updates hA hB hC
  obtain ⟨Ct, ht, hsq⟩ := tiled_matmul_outOfBounds hA hB hC hT hnd hfuel
  rw [main_C_base, main_C_tiled]
  refine ⟨⟨Cb, hb, ub.1⟩, ⟨Ct, ht, hsq⟩, ?_⟩
  intro C hC'
  rw [ht] at hC'
  exact Outcome.noConfusion hC'

/-- Witness for amended C4 at `N = 3`, `T = 2`. -/
theorem main_runs_tiled_unchecked_witness :
    1 ≤ 2 ∧ ¬ (2 ∣ 3) ∧ 3 / 2 < 3 ∧
    (∃ Cb, (main 3 3 2 1 1).C_base = Outcome.done Cb ∧ Cb.IsSquare 3) ∧
    (∃ Ct, (main 3 3 2 1 1).C_tiled = Outcome.outOfBounds Ct ∧ Ct.IsSquare 3) ∧
    ∀ C, (main 3 3 2 1 1).C_tiled ≠ Outcome.done C :=
  ⟨by decide, by decide, by decide,
    main_runs_tiled_unchecked 3 3 2 1 1 (by decide) (by decide) (by decide)⟩

/-- C6: `initialize_matrix(M, val)` yields exactly `N` rows of exactly `N`
elements, every element equal to `val`, whatever `M` was before; the result is
the same for every previous `M` (it depends only on `N` and `val`), and
initializing again changes nothing. -/
theorem initialize_matrix_fills {α : Type u} (N : Nat) (M : Matrix α) (val : α) :
    (initialize_matrix N M val).length = N ∧
    (∀ row ∈ initialize_matrix N M val, row.length = N ∧ ∀ x ∈ row, x = val) ∧
    (∀ i j, i < N → j < N → (initialize_matrix N M val).get? i j = some val) ∧
    (∀ M' : Matrix α, initialize_matrix N M' val = initialize_matrix N M val) ∧
    initialize_matrix N (initialize_matrix N M val) val = initialize_matrix N M val := by
  refine ⟨by simp [initialize_matrix], ?_, ?_, fun _ => rfl, rfl⟩
  · intro row hrow
    rw [initialize_matrix, List.mem_replicate] at hrow
    rw [hrow.2]
    exact ⟨List.length_replicate _ _, fun x hx => (List.mem_replicate.mp hx).2⟩
  · intro i j hi hj
    exact initialize_matrix_get? N M val hi hj

/-- C7: the operation count `main` reports for dimension `N` is the exact
rational `(2 * N^3) / 10^9`; for the compiled `N = 1024` it is
`2147483648 / 10^9`; and the value for dimension `2N` is `8` times the value
for `N`. -/
theorem GFLOPs_is_two_N_cubed (fuel N T : Nat) (nb nt : Int) :
    (main fuel N T nb nt).GFLOPs = (2 * (N : ℚ) ^ 3) / 10 ^ 9 ∧
    (main fuel Compiled.N T nb nt).GFLOPs = 2147483648 / 10 ^ 9 ∧
    (main fuel (2 * N) T nb nt).GFLOPs = 8 * (main fuel N T nb nt).GFLOPs := by
  refine ⟨?_, ?_, ?_⟩
  · show GFLOPs N = _
    unfold GFLOPs
    norm_num
    ring
  · show GFLOPs Compiled.N = _
    unfold GFLOPs Compiled.N
    norm_num
  · show GFLOPs (2 * N) = 8 * GFLOPs N
    unfold GFLOPs
    push_cast
    ring

theorem elapsed_seconds_eq_zero (n : Int) : elapsed_seconds n = 0 ↔ n = 0 := by
  unfold elapsed_seconds
  constructor
  · intro h
    have h' : (n : ℚ) = 0 := by
      rcases div_eq_zero_iff.mp h with h1 | h1
      · exact h1
      · norm_num at h1
    exact_mod_cast h'
  · intro h
    simp [h]

theorem divide?_eq_none (x y : ℚ) : divide? x y = none ↔ y = 0 := by
  unfold divide?
  by_cases h : y = 0 <;> simp [h]

theorem divide?_of_ne {x y : ℚ} (h : y ≠ 0) : divide? x y = some (x / y) := by
  simp [divide?, h]

/-- C9: with division read as a partial operation, the throughput quotient of
a kernel in `main` is undefined exactly when that kernel's elapsed time is
zero, which is exactly when its measured count is zero; the speedup quotient is
undefined exactly when the tiled kernel's elapsed time is zero; and with a zero
baseline count the speedup is `0` unless the tiled count is zero too.  No value
is substituted for an undefined quotient. -/
theorem zero_duration_unguarded (fuel N T : Nat) (nb nt : Int) :
    ((main fuel N T nb nt).time_base = 0 ↔ nb = 0) ∧
    ((main fuel N T nb nt).time_tiled = 0 ↔ nt = 0) ∧
    ((main fuel N T nb nt).throughput_base = none ↔ (main fuel N T nb nt).time_base = 0) ∧
    ((main fuel N T nb nt).throughput_tiled = none ↔ (main fuel N T nb nt).time_tiled = 0) ∧
    ((main fuel N T nb nt).speedup = none ↔ (main fuel N T nb nt).time_tiled = 0) ∧
    (main fuel N T 0 nt).speedup = if nt = 0 then none else some 0 := by
  refine ⟨elapsed_seconds_eq_zero nb, elapsed_seconds_eq_zero nt, ?_, ?_, ?_, ?_⟩
  · exact divide?_eq_none _ _
  · exact divide?_eq_none _ _
  · exact divide?_eq_none _ _
  · show divide? (elapsed_seconds 0) (elapsed_seconds nt) = _
    by_cases h : nt = 0
    · rw [if_pos h, divide?_eq_none, elapsed_seconds_eq_zero]; exact h
    · have h' : elapsed_seconds nt ≠ 0 := fun e => h ((elapsed_seconds_eq_zero nt).mp e)
      rw [if_neg h, divide?_of_ne h']
      simp [elapsed_seconds]

/-- C10: the compiled constants are `N = 1024` and `BLOCK_SIZE = 32`; the block
size is positive, `N mod BLOCK_SIZE = 0`, and `N` is exactly 32 blocks of 32. -/
theorem default_configuration_divisible :
    Compiled.N = 1024 ∧ Compiled.BLOCK_SIZE = 32 ∧ 0 < Compiled.BLOCK_SIZE ∧
    Compiled.N % Compiled.BLOCK_SIZE = 0 ∧ Compiled.N = 32 * Compiled.BLOCK_SIZE ∧
    Compiled.N / Compiled.BLOCK_SIZE = 32 := by
  decide

end HarnessClaims

/-! ## Index safety and summation order of the tiled kernel -/

section TiledClaims

/-- C11: for `N ≥ 1`, block size `T ≥ 1` and `N×N` matrices `A`, `B`, `C`, the
bounds-checked run of `tiled_matmul` (loop budget above `N / T`) completes,
with every index it used inside `[0, N)`, exactly when `T` divides `N`, and it
stops at an index outside a vector exactly when `T` does not divide `N`.  In
that case the block that starts at `(N / T) * T` begins below `N` and runs
past `N`, and index `N` is outside every row of `A`. -/
theorem tiled_index_safety_iff_divisible {α : Type u} [Zero α] [Add α] [Mul α]
    (fuel N T : Nat) (A B C : Matrix α) (hN : 1 ≤ N) (hT : 1 ≤ T) (hfuel : N / T < fuel)
    (hA : A.IsSquare N) (hB : B.IsSquare N) (hC : C.IsSquare N) :
    ((∃ C', tiled_matmul fuel N T A B C = Outcome.done C') ↔ T ∣ N) ∧
    ((∃ C', tiled_matmul fuel N T A B C = Outcome.outOfBounds C') ↔ ¬ T ∣ N) ∧
    (¬ T ∣ N →
      N / T * T < N ∧ N < N / T * T + T ∧ ∀ i, i < N → A.get? i N = none) := by
  have hdone : T ∣ N → ∃ C', tiled_matmul fuel N T A B C = Outcome.done C' := by
    intro hd
    obtain ⟨C', h, _⟩ := tiled_matmul_updates hA hB hC hT hd (Nat.le_of_lt hfuel)
    exact ⟨C', h⟩
  have hoob : ¬ T ∣ N → ∃ C', tiled_matmul fuel N T A B C = Outcome.outOfBounds C' := by
    intro hnd
    obtain ⟨C', h, _⟩ := tiled_matmul_outOfBounds hA hB hC hT hnd hfuel
    exact ⟨C', h⟩
  refine ⟨⟨?_, hdone⟩, ⟨?_, hoob⟩, ?_⟩
  · rintro ⟨C', h⟩
    by_contra hnd
    obtain ⟨D, hD⟩ := hoob hnd
    rw [h] at hD
    exact Outcome.noConfusion hD
  · rintro ⟨C', h⟩ hd
    obtain ⟨D, hD⟩ := hdone hd
    rw [h] at hD
    exact Outcome.noConfusion hD
  · intro hnd
    have hmod : 0 < N % T := by
      rcases Nat.eq_zero_or_pos (N % T) with h | h
      · exact absurd (Nat.dvd_of_mod_eq_zero h) hnd
      · exact h
    have hdiv : N / T * T + N % T = N := by
      rw [Nat.mul_comm]; exact Nat.div_add_mod N T
    have hlt : N % T < T := Nat.mod_lt N hT
    have _ := hN
    exact ⟨by omega, by omega, fun i _ => hA.get?_col_none i (Nat.le_refl N)⟩

/-- Witness for C11: `N = 3` with `T = 2` (not a divisor) on integer matrices. -/
theorem tiled_index_safety_iff_divisible_witness :
    1 ≤ 3 ∧ 1 ≤ 2 ∧ 3 / 2 < 2 ∧
    ((∃ C', tiled_matmul 2 3 2 ([[1, 2, 3], [4, 5, 6], [7, 8, 9]] : Matrix ℤ)
        [[1, 0, 0], [0, 1, 0], [0, 0, 1]] [[0, 0, 0], [0, 0, 0], [0, 0, 0]]
          = Outcome.done C') ↔ 2 ∣ 3) ∧
    ((∃ C', tiled_matmul 2 3 2 ([[1, 2, 3], [4, 5, 6], [7, 8, 9]] : Matrix ℤ)
        [[1, 0, 0], [0, 1, 0], [0, 0, 1]] [[0, 0, 0], [0, 0, 0], [0, 0, 0]]
          = Outcome.outOfBounds C') ↔ ¬ 2 ∣ 3) ∧
    (¬ 2 ∣ 3 →
      3 / 2 * 2 < 3 ∧ 3 < 3 / 2 * 2 + 2 ∧
        ∀ i, i < 3 → Matrix.get? ([[1, 2, 3], [4, 5, 6], [7, 8, 9]] : Matrix ℤ) i 3 = none) :=
  ⟨by decide, by decide, by decide,
    tiled_index_safety_iff_divisible 2 3 2 [[1, 2, 3], [4, 5, 6], [7, 8, 9]]
      [[1, 0, 0], [0, 1, 0], [0, 0, 1]] [[0, 0, 0], [0, 0, 0], [0, 0, 0]]
      (by decide) (by decide) (by decide) (by decide) (by decide) (by decide)⟩

/-- C12: for arbitrary operations `add` and `mul` and an arbitrary element
`zero` (no associativity, commutativity or unit law is assumed), block size
`T ≥ 1` dividing `N` and the output started at `zero`: `tiled_matmul` and
`baseline_matmul` complete with the same matrix, and every cell `(i, j)` of it
is the left-to-right fold
`add (... (add (add zero (mul A[i][0] B[0][j])) (mul A[i][1] B[1][j])) ...) (mul A[i][N-1] B[N-1][j])`
over `k = 0, 1, ..., N-1` in increasing order. -/
theorem tiled_matmul_same_fold_order {α : Type u} (zero : α) (add mul : α → α → α)
    (fuel N T : Nat) (A B M C1 : Matrix α) (hT : 1 ≤ T) (hdvd : T ∣ N)
    (hfuel : N / T ≤ fuel) (hA : A.IsSquare N) (hB : B.IsSquare N) (hC1 : C1.IsSquare N) :
    letI : Zero α := ⟨zero⟩
    letI : Add α := ⟨add⟩
    letI : Mul α := ⟨mul⟩
    ∃ C, tiled_matmul fuel N T A B (initialize_matrix N M zero) = Outcome.done C ∧
      baseline_matmul N A B C1 = Outcome.done C ∧
      ∀ i j, i < N → j < N →
        C.get? i j = some ((List.range N).foldl
          (fun s k => add s (mul ((A.get? i k).getD zero) ((B.get? k j).getD zero))) zero) := by
  letI : Zero α := ⟨zero⟩
  letI : Add α := ⟨add⟩
  letI : Mul α := ⟨mul⟩
  obtain ⟨C, hrun, hupd⟩ :=
    tiled_matmul_updates hA hB (initialize_matrix_isSquare N M zero) hT hdvd hfuel
  obtain ⟨D, hrunD, hupdD⟩ := baseline_matmul_updates hA hB hC1
  have hcell : ∀ i j, i < N → j < N → C.get? i j = some (foldCell A B i j 0 N 0) := by
    intro i j hi hj
    rw [hupd.entry_full hi hj, initialize_matrix_entry N M zero hi hj]
    rfl
  have hDC : D = C := by
    apply hupdD.1.ext hupd.1
    intro i j hi hj
    have h1 := hupdD.entry_full hi hj
    have h2 := hcell i j hi hj
    rw [hupdD.1.get? hi hj] at h1
    rw [hupd.1.get? hi hj] at h2
    exact (Option.some.inj h1).trans (Option.some.inj h2).symm
  refine ⟨C, hrun, by rw [hrunD, hDC], ?_⟩
  intro i j hi hj
  rw [hcell i j hi hj, foldCell, ← List.range_eq_range']
  rfl

/-- Witness for C12: integer matrices with subtraction as `add` and
`a * b + 1` as `mul`; this `add` is neither associative nor commutative. -/
theorem tiled_matmul_same_fold_order_witness :
    1 ≤ 1 ∧ 1 ∣ 2 ∧ 2 / 1 ≤ 2 ∧
    (letI : Zero ℤ := ⟨5⟩
     letI : Add ℤ := ⟨Int.sub⟩
     letI : Mul ℤ := ⟨fun a b => Int.add (Int.mul a b) 1⟩
     ∃ C, tiled_matmul 2 2 1 [[1, 2], [3, 4]] [[5, 6], [7, 8]] (initialize_matrix 2 [] 5)
          = Outcome.done C ∧
      baseline_matmul 2 [[1, 2], [3, 4]] [[5, 6], [7, 8]] [[9, 9], [9, 9]] = Outcome.done C ∧
      ∀ i j, i < 2 → j < 2 →
        C.get? i j = some ((List.range 2).foldl
          (fun s k => Int.sub s (Int.add (Int.mul
            ((Matrix.get? ([[1, 2], [3, 4]] : Matrix ℤ) i k).getD 5)
            ((Matrix.get? ([[5, 6], [7, 8]] : Matrix ℤ) k j).getD 5)) 1)) 5)) :=
  ⟨by decide, by decide, by decide,
    tiled_matmul_same_fold_order (5 : ℤ) Int.sub (fun a b => Int.add (Int.mul a b) 1) 2 2 1
      [[1, 2], [3, 4]] [[5, 6], [7, 8]] [] [[9, 9], [9, 9]]
      (by decide) (by decide) (by decide) (by decide) (by decide) (by decide)⟩

end TiledClaims

/-! ## Termination -/

section Termination

variable {σ τ : Type u}

theorem Outcome.andThen_terminated {o : Outcome σ} {f : σ → Outcome σ}
    (ho : o.terminated = true) (hf : ∀ s, (f s).terminated = true) :
    (o.andThen f).terminated = true := by
  cases o with
  | done s => exact hf s
  | outOfBounds s => rfl
  | outOfFuel s => exact absurd ho (by simp [Outcome.terminated])

theorem Outcome.within_terminated {o : Outcome τ} {s : σ} {f : τ → Outcome σ}
    (ho : o.terminated = true) (hf : ∀ t, (f t).terminated = true) :
    (o.within s f).terminated = true := by
  cases o with
  | done t => exact hf t
  | outOfBounds t => rfl
  | outOfFuel t => exact absurd ho (by simp [Outcome.terminated])

/-- A counted loop ends when every run of its body ends. -/
theorem forCount_terminated (body : Nat → σ → Outcome σ)
    (hbody : ∀ x s, (body x s).terminated = true) :
    ∀ (n x : Nat) (s : σ), (forCount body n x s).terminated = true
  | 0, _, _ => rfl
  | n + 1, x, s =>
    Outcome.andThen_terminated (hbody x s) (fun t => forCount_terminated body hbody n (x + 1) t)

theorem forRange_terminated (body : Nat → σ → Outcome σ)
    (hbody : ∀ x s, (body x s).terminated = true) (lo hi : Nat) (s : σ) :
    (forRange lo hi body s).terminated = true :=
  forCount_terminated body hbody (hi - lo) lo s

/-- A block loop with positive stride ends within `fuel` iterations when
`fuel * T` reaches the bound and every run of its body ends. -/
theorem forStep_terminated (body : Nat → σ → Outcome σ) (hi T : Nat) (hT : 0 < T)
    (hbody : ∀ x s, (body x s).terminated = true) :
    ∀ (fuel x : Nat) (s : σ), hi ≤ x + fuel * T →
      (forStep hi T body fuel x s).terminated = true
  | 0, x, s, h => by
    have hx : ¬ x < hi := by simp at h; omega
    simp [forStep, hx, Outcome.terminated]
  | fuel + 1, x, s, h => by
    by_cases hx : x < hi
    · simp only [forStep, hx, if_true]
      refine Outcome.andThen_terminated (hbody x s)
        (fun t => forStep_terminated body hi T hT hbody fuel (x + T) t ?_)
      rw [Nat.succ_mul] at h
      omega
    · simp [forStep, hx, Outcome.terminated]

/-- A block loop with stride `0` whose body leaves the state as it is, or is
itself cut off in that state, never gets past its first counter value. -/
theorem forStep_zero_stride (body : Nat → σ → Outcome σ) (hi x : Nat) (s : σ) (hx : x < hi)
    (hbody : body x s = Outcome.done s ∨ body x s = Outcome.outOfFuel s) :
    ∀ fuel : Nat, forStep hi 0 body fuel x s = Outcome.outOfFuel s
  | 0 => by simp [forStep, hx]
  | fuel + 1 => by
    rcases hbody with h | h
    · simp only [forStep, hx, if_true, h, Outcome.andThen, Nat.add_zero]
      exact forStep_zero_stride body hi x s hx (Or.inl h) fuel
    · simp [forStep, hx, h, Outcome.andThen]

variable {α : Type u} [Zero α] [Add α] [Mul α]

omit [Zero α] in
theorem mulAddStep_terminated (A B : Matrix α) (i j k : Nat) (sum : α) :
    (mulAddStep A B i j k sum).terminated = true := by
  unfold mulAddStep
  split <;> rfl

omit [Zero α] [Add α] [Mul α] in
theorem storeCell_terminated (C : Matrix α) (i j : Nat) (sum : α) :
    (storeCell C i j sum).terminated = true := by
  unfold storeCell
  split <;> rfl

omit [Zero α] in
theorem tiledBlock_terminated (T : Nat) (A B : Matrix α) (ii jj kk : Nat) (C : Matrix α) :
    (tiledBlock T A B ii jj kk C).terminated = true := by
  refine forRange_terminated _ (fun i D => forRange_terminated _ (fun j E => ?_) _ _ D) _ _ C
  unfold tiledCell
  split
  · rfl
  · exact Outcome.within_terminated
      (forRange_terminated _ (fun k s => mulAddStep_terminated A B i j k s) _ _ _)
      (fun t => storeCell_terminated E i j t)

/-- C14: `tiled_matmul` terminates for every `N ≥ 0` and every block size
`T ≥ 1`, on any matrices: a budget of `fuel` iterations per block loop with
`N ≤ fuel * T` is never used up.  For `T = 0` and `N ≥ 1` no budget is enough:
the loops never advance past `ii = 0` and the run is cut off with the output
untouched.  `baseline_matmul` terminates for every `N`. -/
theorem tiled_matmul_terminates_iff_positive_block {α : Type u} [Zero α] [Add α] [Mul α]
    (fuel N : Nat) (A B C : Matrix α) :
    (∀ T, 1 ≤ T → N ≤ fuel * T → (tiled_matmul fuel N T A B C).terminated = true) ∧
    (1 ≤ N → tiled_matmul fuel N 0 A B C = Outcome.outOfFuel C) ∧
    (baseline_matmul N A B C).terminated = true := by
  refine ⟨?_, ?_, ?_⟩
  · intro T hT hf
    refine forStep_terminated _ N T hT (fun ii D => ?_) fuel 0 C (by omega)
    refine forStep_terminated _ N T hT (fun jj E => ?_) fuel 0 D (by omega)
    exact forStep_terminated _ N T hT (fun kk F => tiledBlock_terminated T A B ii jj kk F)
      fuel 0 E (by omega)
  · intro hN
    have hkk : ∀ (ii jj : Nat) (D : Matrix α),
        forStep N 0 (fun kk => tiledBlock 0 A B ii jj kk) fuel 0 D = Outcome.outOfFuel D := by
      intro ii jj D
      refine forStep_zero_stride _ N 0 D hN (Or.inl ?_) fuel
      simp [tiledBlock, forRange, forCount]
    have hjj : ∀ (ii : Nat) (D : Matrix α),
        forStep N 0 (fun jj => forStep N 0 (fun kk => tiledBlock 0 A B ii jj kk) fuel 0)
          fuel 0 D = Outcome.outOfFuel D := by
      intro ii D
      exact forStep_zero_stride
        (fun jj => forStep N 0 (fun kk => tiledBlock 0 A B ii jj kk) fuel 0) N 0 D hN
        (Or.inr (hkk ii 0 D)) fuel
    exact forStep_zero_stride
      (fun ii => forStep N 0 (fun jj =>
        forStep N 0 (fun kk => tiledBlock 0 A B ii jj kk) fuel 0) fuel 0) N 0 C hN
      (Or.inr (hjj 0 C)) fuel
  · refine forRange_terminated _ (fun i D => forRange_terminated _ (fun j E => ?_) _ _ D) _ _ C
    exact Outcome.within_terminated
      (forRange_terminated _ (fun k s => mulAddStep_terminated A B i j k s) _ _ _)
      (fun t => storeCell_terminated E i j t)

end Termination

/-! ## The blocks partition the iteration space -/

section TraceRules

theorem count_snoc (L : List Event) (e x : Event) :
    (L ++ [e]).count x = L.count x + if e = x then 1 else 0 := by
  rw [List.count_append, List.count_singleton]
  simp

theorem countP_snoc (L : List Event) (e : Event) :
    (L ++ [e]).countP Event.isMulAdd
      = L.countP Event.isMulAdd + if e.isMulAdd = true then 1 else 0 := by
  rw [List.countP_append]
  cases h : e.isMulAdd <;> simp [List.countP_cons, h]

theorem Covers.no_rows (i0 j0 m k0 p q : Nat) (L : List Event) :
    Covers i0 0 j0 m k0 p q L L := by
  refine ⟨fun i j k => ?_, fun i j => ?_, fun i j => ?_, by simp⟩
  · have hc : ¬ (i0 ≤ i ∧ i < i0 + 0 ∧ j0 ≤ j ∧ j < j0 + m ∧ k0 ≤ k ∧ k < k0 + p) := by omega
    rw [if_neg hc]; rfl
  · have hc : ¬ (i0 ≤ i ∧ i < i0 + 0 ∧ j0 ≤ j ∧ j < j0 + m) := by omega
    rw [if_neg hc]; rfl
  · have hc : ¬ (i0 ≤ i ∧ i < i0 + 0 ∧ j0 ≤ j ∧ j < j0 + m) := by omega
    rw [if_neg hc]; rfl

theorem Covers.no_cols (i0 n j0 k0 p q : Nat) (L : List Event) :
    Covers i0 n j0 0 k0 p q L L := by
  refine ⟨fun i j k => ?_, fun i j => ?_, fun i j => ?_, by simp⟩
  · have hc : ¬ (i0 ≤ i ∧ i < i0 + n ∧ j0 ≤ j ∧ j < j0 + 0 ∧ k0 ≤ k ∧ k < k0 + p) := by omega
    rw [if_neg hc]; rfl
  · have hc : ¬ (i0 ≤ i ∧ i < i0 + n ∧ j0 ≤ j ∧ j < j0 + 0) := by omega
    rw [if_neg hc]; rfl
  · have hc : ¬ (i0 ≤ i ∧ i < i0 + n ∧ j0 ≤ j ∧ j < j0 + 0) := by omega
    rw [if_neg hc]; rfl

theorem Covers.no_depth (i0 n j0 m k0 : Nat) (L : List Event) :
    Covers i0 n j0 m k0 0 0 L L := by
  refine ⟨fun i j k => ?_, fun i j => ?_, fun i j => ?_, by simp⟩
  · have hc : ¬ (i0 ≤ i ∧ i < i0 + n ∧ j0 ≤ j ∧ j < j0 + m ∧ k0 ≤ k ∧ k < k0 + 0) := by omega
    rw [if_neg hc]; rfl
  · simp
  · simp

/-- Boxes that follow each other along the rows make one box. -/
theorem Covers.cat_rows {i0 n n' j0 m k0 p q : Nat} {L L1 L2 : List Event}
    (h1 : Covers i0 n j0 m k0 p q L L1) (h2 : Covers (i0 + n) n' j0 m k0 p q L1 L2) :
    Covers i0 (n + n') j0 m k0 p q L L2 := by
  refine ⟨fun i j k => ?_, fun i j => ?_, fun i j => ?_, ?_⟩
  · rw [h2.1, h1.1]; split_ifs <;> omega
  · rw [h2.2.1, h1.2.1]; split_ifs <;> omega
  · rw [h2.2.2.1, h1.2.2.1]; split_ifs <;> omega
  · rw [h2.2.2.2, h1.2.2.2]; ring

/-- Boxes that follow each other along the columns make one box. -/
theorem Covers.cat_cols {i0 n j0 m m' k0 p q : Nat} {L L1 L2 : List Event}
    (h1 : Covers i0 n j0 m k0 p q L L1) (h2 : Covers i0 n (j0 + m) m' k0 p q L1 L2) :
    Covers i0 n j0 (m + m') k0 p q L L2 := by
  refine ⟨fun i j k => ?_, fun i j => ?_, fun i j => ?_, ?_⟩
  · rw [h2.1, h1.1]; split_ifs <;> omega
  · rw [h2.2.1, h1.2.1]; split_ifs <;> omega
  · rw [h2.2.2.1, h1.2.2.1]; split_ifs <;> omega
  · rw [h2.2.2.2, h1.2.2.2]; ring

/-- Boxes over the same cells that follow each other along `k` make one box;
the reads and write backs of the cells add up. -/
theorem Covers.cat_depth {i0 n j0 m k0 p p' q q' : Nat} {L L1 L2 : List Event}
    (h1 : Covers i0 n j0 m k0 p q L L1) (h2 : Covers i0 n j0 m (k0 + p) p' q' L1 L2) :
    Covers i0 n j0 m k0 (p + p') (q + q') L L2 := by
  refine ⟨fun i j k => ?_, fun i j => ?_, fun i j => ?_, ?_⟩
  · rw [h2.1, h1.1]; split_ifs <;> omega
  · rw [h2.2.1, h1.2.1]; split_ifs <;> omega
  · rw [h2.2.2.1, h1.2.2.1]; split_ifs <;> omega
  · rw [h2.2.2.2, h1.2.2.2]; ring

/-- One run of the innermost statement covers one triple. -/
theorem Covers.mulAdd_step (i j k : Nat) (L : List Event) :
    Covers i 1 j 1 k 1 0 L (L ++ [Event.mulAdd i j k]) := by
  refine ⟨fun a b c => ?_, fun a b => ?_, fun a b => ?_, ?_⟩
  · rw [count_snoc]
    by_cases hc : i ≤ a ∧ a < i + 1 ∧ j ≤ b ∧ b < j + 1 ∧ k ≤ c ∧ c < k + 1
    · have e : Event.mulAdd i j k = Event.mulAdd a b c := by
        have h1 : i = a := by omega
        have h2 : j = b := by omega
        have h3 : k = c := by omega
        rw [h1, h2, h3]
      rw [if_pos hc, if_pos e]
    · have e : ¬ Event.mulAdd i j k = Event.mulAdd a b c := by
        intro h
        injection h with h1 h2 h3
        omega
      rw [if_neg hc, if_neg e]
  · rw [count_snoc]; simp
  · rw [count_snoc]; simp
  · rw [countP_snoc]; simp [Event.isMulAdd]

/-- The `k` loop of one cell covers the triples `(i, j, k0) .. (i, j, k0+p-1)`. -/
theorem traceK_done (i j k0 p : Nat) (L : List Event) :
    ∃ L', forCount (recStep i j) p k0 L = Outcome.done L' ∧ Covers i 1 j 1 k0 p 0 L L' := by
  have key := forCount_done (fun y l => Covers i 1 j 1 k0 (y - k0) 0 L l)
    (recStep i j) p k0 L
    (by simpa using Covers.no_depth i 1 j 1 k0 L)
    (fun y l hy1 _ hl => by
      refine ⟨_, rfl, ?_⟩
      have e2 := Covers.mulAdd_step i j y l
      have e3 : y = k0 + (y - k0) := by omega
      rw [e3] at e2
      have e4 : y + 1 - k0 = (y - k0) + 1 := by omega
      show Covers i 1 j 1 k0 (y + 1 - k0) 0 L (l ++ [Event.mulAdd i j y])
      rw [e4, e3]
      have := Covers.cat_depth hl e2
      simpa using this)
  simpa using key

/-- One cell of one block: one read, the `T` triples of the block, one write back. -/
theorem traceCell_done (T kk i j : Nat) (L : List Event) :
    ∃ L', traceCell T kk i j L = Outcome.done L' ∧ Covers i 1 j 1 kk T 1 L L' := by
  obtain ⟨L1, h1, c1⟩ := traceK_done i j kk T (L ++ [Event.load i j])
  refine ⟨L1 ++ [Event.store i j], ?_, ?_⟩
  · simp only [traceCell, nestCell, recLoad, recStore, forRange, Nat.add_sub_cancel_left, h1,
      Outcome.within]
  · have hbox : ∀ a b : Nat, (i ≤ a ∧ a < i + 1 ∧ j ≤ b ∧ b < j + 1) ↔ (i = a ∧ j = b) := by
      intro a b; omega
    refine ⟨fun a b c => ?_, fun a b => ?_, fun a b => ?_, ?_⟩
    · rw [count_snoc, c1.1, count_snoc]; simp
    · rw [count_snoc, c1.2.1, count_snoc]
      simp [hbox]
    · rw [count_snoc, c1.2.2.1, count_snoc]
      simp [hbox]
    · rw [countP_snoc, c1.2.2.2, countP_snoc]; simp [Event.isMulAdd]

/-- The two element loops of one block cover the block's box, each cell once. -/
theorem traceBlock_done (T ii jj kk : Nat) (L : List Event) :
    ∃ L', traceBlock T ii jj kk L = Outcome.done L' ∧ Covers ii T jj T kk T 1 L L' := by
  have hrow : ∀ i (D : List Event),
      ∃ D', forCount (fun j => traceCell T kk i j) T jj D = Outcome.done D' ∧
        Covers i 1 jj T kk T 1 D D' := by
    intro i D
    have key := forCount_done (fun y E => Covers i 1 jj (y - jj) kk T 1 D E)
      (fun j => traceCell T kk i j) T jj D
      (by simpa using Covers.no_cols i 1 jj kk T 1 D)
      (fun y E hy1 _ hE => by
        obtain ⟨E', e1, e2⟩ := traceCell_done T kk i y E
        refine ⟨E', e1, ?_⟩
        have e3 : y = jj + (y - jj) := by omega
        rw [e3] at e2
        have e4 : y + 1 - jj = (y - jj) + 1 := by omega
        show Covers i 1 jj (y + 1 - jj) kk T 1 D E'
        rw [e4]
        exact Covers.cat_cols hE e2)
    simpa using key
  have key := forCount_done (fun y E => Covers ii (y - ii) jj T kk T 1 L E)
    (fun i => forCount (fun j => traceCell T kk i j) T jj) T ii L
    (by simpa using Covers.no_rows ii jj T kk T 1 L)
    (fun y E hy1 _ hE => by
      obtain ⟨E', e1, e2⟩ := hrow y E
      refine ⟨E', e1, ?_⟩
      have e3 : y = ii + (y - ii) := by omega
      rw [e3] at e2
      have e4 : y + 1 - ii = (y - ii) + 1 := by omega
      show Covers ii (y + 1 - ii) jj T kk T 1 L E'
      rw [e4]
      exact Covers.cat_rows hE e2)
  simpa [traceBlock, traceCell, nestBlock, forRange_eq] using key

/-- The `kk` loop of one `(ii, jj)` tile covers the tile's cells over all of
`k`, reading and writing back each cell once per block. -/
theorem traceKK_done {N T m fuel : Nat} (hT : 0 < T) (hN : N = m * T) (hf : m ≤ fuel)
    (ii jj : Nat) (L : List Event) :
    ∃ L', forStep N T (fun kk => traceBlock T ii jj kk) fuel 0 L = Outcome.done L' ∧
      Covers ii T jj T 0 N (N / T) L L' := by
  refine forStep_done (fun y E => Covers ii T jj T 0 y (y / T) L E)
    _ N T hT m fuel 0 L hf (by omega) (by simpa using Covers.no_depth ii T jj T 0 L) ?_
  intro y E _ _ hE
  obtain ⟨E', e1, e2⟩ := traceBlock_done T ii jj y E
  refine ⟨E', e1, ?_⟩
  have e3 : (y + T) / T = y / T + 1 := Nat.add_div_right y hT
  show Covers ii T jj T 0 (y + T) ((y + T) / T) L E'
  rw [e3]
  refine Covers.cat_depth hE ?_
  rw [Nat.zero_add]; exact e2

/-- The `jj` loop of one row of tiles. -/
theorem traceJJ_done {N T m fuel : Nat} (hT : 0 < T) (hN : N = m * T) (hf : m ≤ fuel)
    (ii : Nat) (L : List Event) :
    ∃ L', forStep N T (fun jj =>
        forStep N T (fun kk => traceBlock T ii jj kk) fuel 0) fuel 0 L = Outcome.done L' ∧
      Covers ii T 0 N 0 N (N / T) L L' := by
  refine forStep_done (fun y E => Covers ii T 0 y 0 N (N / T) L E)
    _ N T hT m fuel 0 L hf (by omega) (Covers.no_cols ii T 0 0 N (N / T) L) ?_
  intro y E _ _ hE
  obtain ⟨E', e1, e2⟩ := traceKK_done hT hN hf ii y E
  refine ⟨E', e1, Covers.cat_cols hE ?_⟩
  rw [Nat.zero_add]; exact e2

/-- The whole nest covers `[0, N)^3`. -/
theorem tiled_trace_covers {N T fuel : Nat} (hT : 0 < T) (hdvd : T ∣ N) (hf : N / T ≤ fuel) :
    ∃ L, tiled_trace fuel N T = Outcome.done L ∧ Covers 0 N 0 N 0 N (N / T) [] L := by
  have hN : N = (N / T) * T := (Nat.div_mul_cancel hdvd).symm
  refine forStep_done (fun y E => Covers 0 y 0 N 0 N (N / T) [] E)
    _ N T hT (N / T) fuel 0 [] hf (by omega) (Covers.no_rows 0 0 N 0 N (N / T) []) ?_
  intro y E _ _ hE
  obtain ⟨E', e1, e2⟩ := traceJJ_done hT hN hf y E
  refine ⟨E', e1, Covers.cat_rows hE ?_⟩
  rw [Nat.zero_add]; exact e2

/-- Every index below `N` lies in the block of exactly one origin. -/
theorem index_in_one_block {N T : Nat} (hT : 0 < T) (hdvd : T ∣ N) {x : Nat} (hx : x < N) :
    ∃! o, o ∈ (List.range (N / T)).map (fun q => q * T) ∧ o ≤ x ∧ x < o + T := by
  have hN : N = (N / T) * T := (Nat.div_mul_cancel hdvd).symm
  have hdm : T * (x / T) + x % T = x := Nat.div_add_mod x T
  have hml : x % T < T := Nat.mod_lt x hT
  have hcomm : x / T * T = T * (x / T) := Nat.mul_comm _ _
  refine ⟨x / T * T, ⟨?_, by omega, by omega⟩, ?_⟩
  · refine List.mem_map.mpr ⟨x / T, List.mem_range.mpr ?_, rfl⟩
    apply Nat.div_lt_of_lt_mul
    rw [Nat.mul_comm, ← hN]; exact hx
  · rintro o ⟨ho, h1, h2⟩
    obtain ⟨q, _, rfl⟩ := List.mem_map.mp ho
    have hq : x / T = q := by
      apply Nat.div_eq_of_lt_le
      · exact h1
      · rw [Nat.succ_mul]; exact h2
    rw [hq]

end TraceRules

section NestRules

universe v

variable {α : Type u} [Add α] [Mul α]

/-- The kernel `tiled_matmul` is the loop nest run with the three statements of
the program: the read of `C[i][j]`, `mulAddStep` and `storeCell`. -/
theorem tiled_matmul_eq_tiledNest (fuel N T : Nat) (A B C : Matrix α) :
    tiled_matmul fuel N T A B C
      = tiledNest (fun i j (D : Matrix α) => D.get? i j) (mulAddStep A B) storeCell
          fuel N T C := rfl

variable {σ : Type u} {τ : Type u}

/-- A counted loop runs its body at `x, x+1, ..., x+n-1`, in order. -/
theorem forCount_eq_runOver (body : Nat → σ → Outcome σ) :
    ∀ (n x : Nat), forCount body n x = runOver body (List.range' x n)
  | 0, _ => rfl
  | n + 1, x => by
    funext s
    simp only [forCount, List.range'_succ, runOver, forCount_eq_runOver body n (x + 1)]

/-- A block loop with positive stride `T` over exactly `m` blocks runs its body
at `x, x+T, ..., x+(m-1)T`, in order, when its budget is at least `m`. -/
theorem forStep_eq_runOver (body : Nat → σ → Outcome σ) (hi T : Nat) (hT : 0 < T) :
    ∀ (m fuel x : Nat), m ≤ fuel → hi = x + m * T →
      forStep hi T body fuel x = runOver body ((List.range m).map (fun q => x + q * T))
  | 0, fuel, x, _, hhi => by
    have e : hi = x := by simpa using hhi
    funext s
    cases fuel <;> simp [forStep, runOver, e]
  | m + 1, 0, _, hf, _ => absurd hf (by omega)
  | m + 1, fuel + 1, x, hf, hhi => by
    have hlt : x < hi := by
      have : 0 < (m + 1) * T := Nat.mul_pos (by omega) hT
      omega
    have ih := forStep_eq_runOver body hi T hT m fuel (x + T) (by omega)
      (by rw [hhi, Nat.succ_mul]; omega)
    have hlist : (List.range (m + 1)).map (fun q => x + q * T)
        = x :: (List.range m).map (fun q => x + T + q * T) := by
      rw [List.range_succ_eq_map, List.map_cons, List.map_map]
      congr 1
      · simp
      · apply List.map_congr_left
        intro q _
        simp only [Function.comp, Nat.succ_mul]
        omega
    funext s
    simp only [forStep, hlt, if_true, ih, hlist, runOver]

theorem Outcome.andThen_eq_done {o : Outcome σ} {f : σ → Outcome σ} {s' : σ}
    (h : o.andThen f = Outcome.done s') : ∃ t, o = Outcome.done t ∧ f t = Outcome.done s' := by
  cases o with
  | done t => exact ⟨t, rfl, h⟩
  | outOfBounds t => exact Outcome.noConfusion h
  | outOfFuel t => exact Outcome.noConfusion h

theorem Outcome.within_eq_done {o : Outcome τ} {s : σ} {f : τ → Outcome σ} {s' : σ}
    (h : o.within s f = Outcome.done s') : ∃ t, o = Outcome.done t ∧ f t = Outcome.done s' := by
  cases o with
  | done t => exact ⟨t, rfl, h⟩
  | outOfBounds t => exact Outcome.noConfusion h
  | outOfFuel t => exact Outcome.noConfusion h

end NestRules

section PairRules

universe v

variable {σ₁ τ₁ : Type u} {σ₂ τ₂ : Type v}

/-- Two completed runs of a counted loop give a completed run of the loop on
pairs, when the body on pairs follows the two bodies. -/
theorem forCount_pair (b1 : Nat → σ₁ → Outcome σ₁) (b2 : Nat → σ₂ → Outcome σ₂)
    (bP : Nat → σ₁ × σ₂ → Outcome (σ₁ × σ₂))
    (h : ∀ y a b a' b', b1 y a = Outcome.done a' → b2 y b = Outcome.done b' →
      bP y (a, b) = Outcome.done (a', b')) :
    ∀ (n x : Nat) (a : σ₁) (b : σ₂) (a' : σ₁) (b' : σ₂),
      forCount b1 n x a = Outcome.done a' → forCount b2 n x b = Outcome.done b' →
      forCount bP n x (a, b) = Outcome.done (a', b')
  | 0, _, a, b, a', b', h1, h2 => by
    simp only [forCount, Outcome.done.injEq] at h1 h2
    simp [forCount, h1, h2]
  | n + 1, x, a, b, a', b', h1, h2 => by
    obtain ⟨t1, e1, r1⟩ := Outcome.andThen_eq_done h1
    obtain ⟨t2, e2, r2⟩ := Outcome.andThen_eq_done h2
    simp only [forCount, h x a b t1 t2 e1 e2, Outcome.andThen]
    exact forCount_pair b1 b2 bP h n (x + 1) t1 t2 a' b' r1 r2

/-- Two completed runs of a block loop give a completed run of the loop on pairs. -/
theorem forStep_pair (hi T : Nat) (b1 : Nat → σ₁ → Outcome σ₁) (b2 : Nat → σ₂ → Outcome σ₂)
    (bP : Nat → σ₁ × σ₂ → Outcome (σ₁ × σ₂))
    (h : ∀ y a b a' b', b1 y a = Outcome.done a' → b2 y b = Outcome.done b' →
      bP y (a, b) = Outcome.done (a', b')) :
    ∀ (fuel x : Nat) (a : σ₁) (b : σ₂) (a' : σ₁) (b' : σ₂),
      forStep hi T b1 fuel x a = Outcome.done a' → forStep hi T b2 fuel x b = Outcome.done b' →
      forStep hi T bP fuel x (a, b) = Outcome.done (a', b')
  | 0, x, a, b, a', b', h1, h2 => by
    by_cases hx : x < hi
    · simp [forStep, hx] at h1
    · simp only [forStep, hx, if_false, Outcome.done.injEq] at h1 h2
      simp [forStep, hx, h1, h2]
  | fuel + 1, x, a, b, a', b', h1, h2 => by
    by_cases hx : x < hi
    · simp only [forStep, hx, if_true] at h1 h2
      obtain ⟨t1, e1, r1⟩ := Outcome.andThen_eq_done h1
      obtain ⟨t2, e2, r2⟩ := Outcome.andThen_eq_done h2
      simp only [forStep, hx, if_true, h x a b t1 t2 e1 e2, Outcome.andThen]
      exact forStep_pair hi T b1 b2 bP h fuel (x + T) t1 t2 a' b' r1 r2
    · simp only [forStep, hx, if_false, Outcome.done.injEq] at h1 h2
      simp [forStep, hx, h1, h2]

/-- Two completed runs of the loop nest, with two sets of statements, give a
completed run of the nest on pairs when each statement on pairs follows the
two statements it is made of. -/
theorem tiledNest_pair
    (load1 : Nat → Nat → σ₁ → Option τ₁) (step1 : Nat → Nat → Nat → τ₁ → Outcome τ₁)
    (store1 : σ₁ → Nat → Nat → τ₁ → Outcome σ₁)
    (load2 : Nat → Nat → σ₂ → Option τ₂) (step2 : Nat → Nat → Nat → τ₂ → Outcome τ₂)
    (store2 : σ₂ → Nat → Nat → τ₂ → Outcome σ₂)
    (loadP : Nat → Nat → σ₁ × σ₂ → Option (τ₁ × τ₂))
    (stepP : Nat → Nat → Nat → τ₁ × τ₂ → Outcome (τ₁ × τ₂))
    (storeP : σ₁ × σ₂ → Nat → Nat → τ₁ × τ₂ → Outcome (σ₁ × σ₂))
    (hload : ∀ i j a b ta tb, load1 i j a = some ta → load2 i j b = some tb →
      loadP i j (a, b) = some (ta, tb))
    (hstep : ∀ i j k ta tb ta' tb', step1 i j k ta = Outcome.done ta' →
      step2 i j k tb = Outcome.done tb' → stepP i j k (ta, tb) = Outcome.done (ta', tb'))
    (hstore : ∀ a b i j ta tb a' b', store1 a i j ta = Outcome.done a' →
      store2 b i j tb = Outcome.done b' → storeP (a, b) i j (ta, tb) = Outcome.done (a', b'))
    (fuel N T : Nat) (a : σ₁) (b : σ₂) (a' : σ₁) (b' : σ₂)
    (h1 : tiledNest load1 step1 store1 fuel N T a = Outcome.done a')
    (h2 : tiledNest load2 step2 store2 fuel N T b = Outcome.done b') :
    tiledNest loadP stepP storeP fuel N T (a, b) = Outcome.done (a', b') := by
  have hcell : ∀ kk i j a b a' b',
      nestCell load1 step1 store1 T kk i j a = Outcome.done a' →
      nestCell load2 step2 store2 T kk i j b = Outcome.done b' →
      nestCell loadP stepP storeP T kk i j (a, b) = Outcome.done (a', b') := by
    intro kk i j a b a' b' c1 c2
    unfold nestCell at c1 c2 ⊢
    cases hl1 : load1 i j a with
    | none => rw [hl1] at c1; exact Outcome.noConfusion c1
    | some ta =>
      cases hl2 : load2 i j b with
      | none => rw [hl2] at c2; exact Outcome.noConfusion c2
      | some tb =>
        rw [hl1] at c1
        rw [hl2] at c2
        obtain ⟨ta', k1, s1⟩ := Outcome.within_eq_done c1
        obtain ⟨tb', k2, s2⟩ := Outcome.within_eq_done c2
        have kP := forCount_pair (step1 i j) (step2 i j) (stepP i j) (hstep i j)
          (kk + T - kk) kk ta tb ta' tb' k1 k2
        simp only [hload i j a b ta tb hl1 hl2, forRange, kP, Outcome.within]
        exact hstore a b i j ta' tb' a' b' s1 s2
  have hblock : ∀ ii jj kk a b a' b',
      nestBlock load1 step1 store1 T ii jj kk a = Outcome.done a' →
      nestBlock load2 step2 store2 T ii jj kk b = Outcome.done b' →
      nestBlock loadP stepP storeP T ii jj kk (a, b) = Outcome.done (a', b') := by
    intro ii jj kk a b a' b' c1 c2
    exact forCount_pair _ _ _
      (fun i a b a' b' d1 d2 => forCount_pair _ _ _
        (fun j a b a' b' e1 e2 => hcell kk i j a b a' b' e1 e2) _ _ a b a' b' d1 d2)
      _ _ a b a' b' c1 c2
  exact forStep_pair N T _ _ _
    (fun ii a b a' b' d1 d2 => forStep_pair N T _ _ _
      (fun jj a b a' b' e1 e2 => forStep_pair N T _ _ _
        (fun kk a b a' b' f1 f2 => hblock ii jj kk a b a' b' f1 f2) fuel 0 a b a' b' e1 e2)
      fuel 0 a b a' b' d1 d2)
    fuel 0 a b a' b' h1 h2

end PairRules

section TraceClaims

variable {α : Type u} [Zero α] [Add α] [Mul α]

omit [Zero α] in
/-- The element loops of one block run the cell body over the rows
`ii .. ii+T-1` and, in each row, over the columns `jj .. jj+T-1`. -/
theorem tiledBlock_eq_runOver (T : Nat) (A B : Matrix α) (ii jj kk : Nat) :
    tiledBlock T A B ii jj kk
      = runOver (fun i => runOver (fun j => tiledCell T A B kk i j) (List.range' jj T))
          (List.range' ii T) := by
  funext C
  simp only [tiledBlock, forRange_eq, Nat.add_sub_cancel_left, forCount_eq_runOver]

omit [Zero α] in
/-- When `tiled_matmul` and the recording run of the nest both complete, the
nest run on the matrix together with the record completes with the matrix of
`tiled_matmul` and that record. -/
theorem tiled_matmul_logged_done {fuel N T : Nat} {A B C C' : Matrix α} {L : List Event}
    (h1 : tiled_matmul fuel N T A B C = Outcome.done C')
    (h2 : tiled_trace fuel N T = Outcome.done L) :
    tiled_matmul_logged fuel N T A B C = Outcome.done (C', L) := by
  rw [tiled_matmul_eq_tiledNest] at h1
  refine tiledNest_pair (fun i j (D : Matrix α) => D.get? i j) (mulAddStep A B) storeCell
    recLoad recStep recStore logLoad (logStep A B) logStore ?_ ?_ ?_ fuel N T C [] C' L h1 h2
  · intro i j D l c l' hc hl
    simp only [recLoad, Option.some.injEq] at hl
    simp only [logLoad, hc, hl]
  · intro i j k c l c' l' hc hl
    simp only [recStep, Outcome.done.injEq] at hl
    simp only [logStep, hc, hl]
  · intro D l i j c l0 D' l' hc hl
    simp only [recStore, Outcome.done.injEq] at hl
    simp only [logStore, hc, hl]

/-- C13: for every block size `T ≥ 1`, every `N` divisible by `T` (loop budget
at least `N / T`) and `N×N` matrices `A`, `B`, `C`: the three block loops of
`tiled_matmul` run their bodies at the origins `0, T, 2T, ..., N - T`, in
order, and the element loops of a block at its `T` rows and `T` columns; every
index in `[0, N)` lies in exactly one block `[o, o + T)`; and the run of
`tiled_matmul` in which every statement is also recorded completes, with the
output of `tiled_matmul`, having processed every triple `(i, j, k)` of
`[0, N)^3` exactly once in the innermost statement and no other triple, `N^3`
multiply-adds in total, with every output cell `(i, j)` of `[0, N)^2` read
exactly `N / T` times and written back exactly `N / T` times. -/
theorem tiled_blocks_partition (fuel N T : Nat) (A B C : Matrix α) (hT : 1 ≤ T)
    (hdvd : T ∣ N) (hfuel : N / T ≤ fuel) (hA : A.IsSquare N) (hB : B.IsSquare N)
    (hC : C.IsSquare N) :
    tiled_matmul fuel N T A B C
      = runOver (fun ii => runOver (fun jj => runOver (fun kk =>
            runOver (fun i => runOver (fun j => tiledCell T A B kk i j) (List.range' jj T))
              (List.range' ii T))
          ((List.range (N / T)).map (fun q => q * T)))
          ((List.range (N / T)).map (fun q => q * T)))
          ((List.range (N / T)).map (fun q => q * T)) C ∧
    (∀ x, x < N →
      ∃! o, o ∈ (List.range (N / T)).map (fun q => q * T) ∧ o ≤ x ∧ x < o + T) ∧
    ∃ C' L, tiled_matmul fuel N T A B C = Outcome.done C' ∧
      tiled_matmul_logged fuel N T A B C = Outcome.done (C', L) ∧
      (∀ i j k, L.count (Event.mulAdd i j k) = if i < N ∧ j < N ∧ k < N then 1 else 0) ∧
      L.countP Event.isMulAdd = N ^ 3 ∧
      (∀ i j, L.count (Event.load i j) = if i < N ∧ j < N then N / T else 0) ∧
      (∀ i j, L.count (Event.store i j) = if i < N ∧ j < N then N / T else 0) := by
  have hN : N = 0 + (N / T) * T := by
    rw [Nat.zero_add]; exact (Nat.div_mul_cancel hdvd).symm
  have hloop : ∀ body : Nat → Matrix α → Outcome (Matrix α),
      forStep N T body fuel 0 = runOver body ((List.range (N / T)).map (fun q => q * T)) := by
    intro body
    rw [forStep_eq_runOver body N T hT (N / T) fuel 0 hfuel hN]
    simp
  obtain ⟨C', hrun, _⟩ := tiled_matmul_updates hA hB hC hT hdvd hfuel
  obtain ⟨L, hlog, hcov⟩ := tiled_trace_covers hT hdvd hfuel
  refine ⟨?_, fun x hx => index_in_one_block hT hdvd hx, C', L, hrun,
    tiled_matmul_logged_done hrun hlog, fun i j k => ?_, ?_, fun i j => ?_, fun i j => ?_⟩
  · simp only [tiled_matmul, hloop, tiledBlock_eq_runOver]
  · rw [hcov.1 i j k]
    simp
  · rw [hcov.2.2.2]
    simp
    ring
  · rw [hcov.2.1 i j]
    simp
  · rw [hcov.2.2.1 i j]
    simp

/-- Witness for C13: `N = 2`, `T = 1` on integer matrices, with the completed
run written out: each cell is read and written back twice. -/
theorem tiled_blocks_partition_witness :
    (1 ≤ 1 ∧ 1 ∣ 2 ∧ 2 / 1 ≤ 2 ∧
      tiled_matmul 2 2 1 ([[1, 2], [3, 4]] : Matrix ℤ) [[5, 6], [7, 8]] [[0, 0], [0, 0]]
        = runOver (fun ii => runOver (fun jj => runOver (fun kk =>
              runOver (fun i => runOver
                  (fun j => tiledCell 1 ([[1, 2], [3, 4]] : Matrix ℤ) [[5, 6], [7, 8]] kk i j)
                  (List.range' jj 1))
                (List.range' ii 1))
            ((List.range (2 / 1)).map (fun q => q * 1)))
            ((List.range (2 / 1)).map (fun q => q * 1)))
            ((List.range (2 / 1)).map (fun q => q * 1)) [[0, 0], [0, 0]] ∧
      (∀ x, x < 2 →
        ∃! o, o ∈ (List.range (2 / 1)).map (fun q => q * 1) ∧ o ≤ x ∧ x < o + 1) ∧
      ∃ C' L, tiled_matmul 2 2 1 ([[1, 2], [3, 4]] : Matrix ℤ) [[5, 6], [7, 8]]
            [[0, 0], [0, 0]] = Outcome.done C' ∧
        tiled_matmul_logged 2 2 1 ([[1, 2], [3, 4]] : Matrix ℤ) [[5, 6], [7, 8]]
            [[0, 0], [0, 0]] = Outcome.done (C', L) ∧
        (∀ i j k, L.count (Event.mulAdd i j k) = if i < 2 ∧ j < 2 ∧ k < 2 then 1 else 0) ∧
        L.countP Event.isMulAdd = 2 ^ 3 ∧
        (∀ i j, L.count (Event.load i j) = if i < 2 ∧ j < 2 then 2 / 1 else 0) ∧
        (∀ i j, L.count (Event.store i j) = if i < 2 ∧ j < 2 then 2 / 1 else 0)) ∧
    tiled_matmul_logged 2 2 1 ([[1, 2], [3, 4]] : Matrix ℤ) [[5, 6], [7, 8]] [[0, 0], [0, 0]]
      = Outcome.done ([[19, 22], [43, 50]],
         [Event.load 0 0, Event.mulAdd 0 0 0, Event.store 0 0,
          Event.load 0 0, Event.mulAdd 0 0 1, Event.store 0 0,
          Event.load 0 1, Event.mulAdd 0 1 0, Event.store 0 1,
          Event.load 0 1, Event.mulAdd 0 1 1, Event.store 0 1,
          Event.load 1 0, Event.mulAdd 1 0 0, Event.store 1 0,
          Event.load 1 0, Event.mulAdd 1 0 1, Event.store 1 0,
          Event.load 1 1, Event.mulAdd 1 1 0, Event.store 1 1,
          Event.load 1 1, Event.mulAdd 1 1 1, Event.store 1 1]) :=
  ⟨⟨by decide, by decide, by decide,
    tiled_blocks_partition 2 2 1 [[1, 2], [3, 4]] [[5, 6], [7, 8]] [[0, 0], [0, 0]]
      (by decide) (by decide) (by decide) (by decide) (by decide) (by decide)⟩, by decide⟩

end TraceClaims


/-! ## Uniformly filled operands -/

section FloatRules

theorem bitLength_le : ∀ (fuel k n : Nat), n < 2 ^ k → bitLength fuel n ≤ k
  | 0, _, _, _ => Nat.zero_le _
  | fuel + 1, k, n, h => by
    unfold bitLength
    by_cases hn : n = 0
    · simp [hn]
    · rw [if_neg hn]
      obtain ⟨k', rfl⟩ : ∃ k', k = k' + 1 := by
        cases k with
        | zero => simp at h; exact absurd h hn
        | succ k' => exact ⟨k', rfl⟩
      have h2 : n / 2 < 2 ^ k' := by
        rw [Nat.pow_succ] at h
        omega
      have := bitLength_le fuel k' (n / 2) h2
      omega

/-- A magnitude that is a multiple of `2^e` and below `2^(e+24)` has at most 24
significant digits: rounding leaves it as it is. -/
theorem roundMagnitude_exact {e p : Nat} (hdiv : 2 ^ e ∣ p) (hlt : p < 2 ^ (e + 24)) :
    roundMagnitude 0 p = p := by
  have hL : bitLength 600 p ≤ e + 24 := bitLength_le 600 (e + 24) p hlt
  have hs : max (bitLength 600 p - 24) 0 ≤ e := by
    rw [Nat.max_eq_left (Nat.zero_le _)]
    omega
  have hd : 2 ^ max (bitLength 600 p - 24) 0 ∣ p := (Nat.pow_dvd_pow 2 hs).trans hdiv
  have hq : p / 2 ^ max (bitLength 600 p - 24) 0 * 2 ^ max (bitLength 600 p - 24) 0 = p :=
    Nat.div_mul_cancel hd
  have hpos : 0 < 2 ^ max (bitLength 600 p - 24) 0 := Nat.pow_pos (by decide)
  simp only [roundMagnitude, Nat.shiftRight_eq_div_pow, Nat.shiftLeft_eq, hq, Nat.sub_self,
    Nat.mul_zero, Nat.one_mul, Nat.sub_zero]
  have hc : ¬ (2 ^ max (bitLength 600 p - 24) 0 < 0 ∨
      (0 = 2 ^ max (bitLength 600 p - 24) 0 ∧
        p / 2 ^ max (bitLength 600 p - 24) 0 % 2 = 1)) := by
    omega
  rw [if_neg hc, hq]

/-- Adding two non-negative binary32 values that are multiples of `2^e` units
is exact when the sum stays below `2^(e+24)` units. -/
theorem F32.add_exact {e m n : Nat} (hm : 2 ^ e ∣ m) (hn : 2 ^ e ∣ n)
    (hlt : m + n < 2 ^ (e + 24)) (he : e + 24 ≤ 277) :
    F32.finite false m + F32.finite false n = F32.finite false (m + n) := by
  have hr := roundMagnitude_exact (Nat.dvd_add hm hn) hlt
  have hb : m + n < 1 <<< 277 := by
    have key : ∀ w, e + 24 ≤ w → 2 ^ (e + 24) ≤ 1 <<< w := by
      intro w hw
      rw [Nat.one_shiftLeft]
      exact Nat.pow_le_pow_right (by decide) hw
    have hpow := key 277 he
    omega
  show F32.add (F32.finite false m) (F32.finite false n) = _
  simp only [F32.add, if_true, hr, F32.pack, hb]

/-- Repeated addition of the value `c * 2^e` units, started from zero, is exact
as long as the count times `c` stays below `2^24`. -/
theorem F32.repeated_sum_exact (c e : Nat) (he : e + 24 ≤ 277) :
    ∀ k : Nat, k * c < 2 ^ 24 →
      Nat.iterate (fun s => s + F32.finite false (c * 2 ^ e)) k 0
        = F32.finite false (k * c * 2 ^ e)
  | 0, _ => by simp; rfl
  | k + 1, h => by
    have hk : k * c < 2 ^ 24 := by
      have : k * c ≤ (k + 1) * c := Nat.mul_le_mul_right c (Nat.le_succ k)
      omega
    rw [Function.iterate_succ_apply', F32.repeated_sum_exact c e he k hk]
    have hsum : k * c * 2 ^ e + c * 2 ^ e = (k + 1) * c * 2 ^ e := by ring
    rw [F32.add_exact (e := e) (Dvd.intro_left _ rfl) (Dvd.intro_left _ rfl) ?_ he, hsum]
    rw [hsum, Nat.pow_add, Nat.mul_comm (2 ^ e) (2 ^ 24)]
    exact Nat.mul_lt_mul_of_pos_right h (Nat.pow_pos (by decide))

end FloatRules

section UniformRules

variable {α : Type u} [Zero α] [Add α] [Mul α]

/-- With `A` filled with `a` and `B` filled with `b`, the reduction of a cell
is the repeated addition of `a * b`. -/
theorem foldCell_uniform (N : Nat) (a b : α) (MA MB : Matrix α) {i j : Nat}
    (hi : i < N) (hj : j < N) :
    ∀ (n lo : Nat) (acc : α), lo + n ≤ N →
      foldCell (initialize_matrix N MA a) (initialize_matrix N MB b) i j lo n acc
        = Nat.iterate (fun s => s + a * b) n acc
  | 0, _, _, _ => rfl
  | n + 1, lo, acc, h => by
    have hlo : lo < N := by omega
    rw [foldCell_succ_left, foldCell_uniform N a b MA MB hi hj n (lo + 1) _ (by omega),
      initialize_matrix_entry N MA a hi hlo, initialize_matrix_entry N MB b hlo hj,
      Function.iterate_succ_apply]

/-- With uniformly filled operands and zero outputs both kernels complete and
every cell of either output is `a * b` added `N` times to `0`, in the
arithmetic of the element type. -/
theorem uniform_fill_cells (fuel N T : Nat) (a b : α) (MA MB MC MD : Matrix α)
    (hT : 1 ≤ T) (hdvd : T ∣ N) (hfuel : N / T ≤ fuel) :
    ∃ Cb Ct,
      baseline_matmul N (initialize_matrix N MA a) (initialize_matrix N MB b)
        (initialize_matrix N MC 0) = Outcome.done Cb ∧
      tiled_matmul fuel N T (initialize_matrix N MA a) (initialize_matrix N MB b)
        (initialize_matrix N MD 0) = Outcome.done Ct ∧
      ∀ i j, i < N → j < N →
        Cb.get? i j = some (Nat.iterate (fun s => s + a * b) N 0) ∧
        Ct.get? i j = some (Nat.iterate (fun s => s + a * b) N 0) := by
  have hA := initialize_matrix_isSquare N MA a
  have hB := initialize_matrix_isSquare N MB b
  obtain ⟨Cb, hb, ub⟩ := baseline_matmul_updates hA hB (initialize_matrix_isSquare N MC 0)
  obtain ⟨Ct, ht, ut⟩ :=
    tiled_matmul_updates hA hB (initialize_matrix_isSquare N MD 0) hT hdvd hfuel
  refine ⟨Cb, Ct, hb, ht, fun i j hi hj => ⟨?_, ?_⟩⟩
  · rw [ub.entry_full hi hj, foldCell_uniform N a b MA MB hi hj N 0 0 (by omega)]
  · rw [ut.entry_full hi hj, initialize_matrix_entry N MD 0 hi hj,
      foldCell_uniform N a b MA MB hi hj N 0 0 (by omega)]

/-- In exact arithmetic, adding `c` to `0` `n` times gives `c * n`. -/
theorem repeated_sum_semiring {β : Type u} [Semiring β] (c : β) :
    ∀ n : Nat, Nat.iterate (fun s => s + c) n 0 = c * (n : β)
  | 0 => by simp
  | n + 1 => by
    rw [Function.iterate_succ_apply', repeated_sum_semiring c n, Nat.cast_succ, mul_add, mul_one]

end UniformRules

section UniformClaims

set_option maxRecDepth 100000 in
/-- C5 does not hold for all scalars of the program's element type.  In
binary32 take `a = 0.1f` (`13421773 * 2^-27`), `b = 1` and `N = 10`, `T = 2`:
both kernels leave `1.0000001` (`8388609 * 2^-23`) in cell `(0, 0)`, whereas the
binary32 product `a * b * 10` is `1`, and the exact product of the values of
`a`, `b` and `10` is neither. -/
theorem uniform_fill_not_exact_in_float :
    ∃ Cb Ct,
      baseline_matmul 10 (initialize_matrix 10 [] (F32.finite false (13421773 * 2 ^ 122)))
        (initialize_matrix 10 [] (F32.finite false (2 ^ 149))) (initialize_matrix 10 [] 0)
          = Outcome.done Cb ∧
      tiled_matmul 5 10 2 (initialize_matrix 10 [] (F32.finite false (13421773 * 2 ^ 122)))
        (initialize_matrix 10 [] (F32.finite false (2 ^ 149))) (initialize_matrix 10 [] 0)
          = Outcome.done Ct ∧
      Cb.get? 0 0 = some (F32.finite false (8388609 * 2 ^ 126)) ∧
      Ct.get? 0 0 = some (F32.finite false (8388609 * 2 ^ 126)) ∧
      F32.finite false (13421773 * 2 ^ 122) * F32.finite false (2 ^ 149)
        = F32.finite false (13421773 * 2 ^ 122) ∧
      F32.finite false (13421773 * 2 ^ 122) * F32.finite false (2 ^ 149)
          * F32.finite false (10 * 2 ^ 149) = F32.finite false (2 ^ 149) ∧
      F32.finite false (8388609 * 2 ^ 126)
        ≠ F32.finite false (13421773 * 2 ^ 122) * F32.finite false (2 ^ 149)
            * F32.finite false (10 * 2 ^ 149) ∧
      8388609 * 2 ^ 126 ≠ 13421773 * 2 ^ 122 * 10 := by
  obtain ⟨Cb, Ct, hb, ht, hcell⟩ := uniform_fill_cells 5 10 2
    (F32.finite false (13421773 * 2 ^ 122)) (F32.finite false (2 ^ 149)) [] [] [] []
    (by decide) (by decide) (by decide)
  have hsum : Nat.iterate (fun s => s + F32.finite false (13421773 * 2 ^ 122)
      * F32.finite false (2 ^ 149)) 10 0 = F32.finite false (8388609 * 2 ^ 126) := by decide
  have h00 := hcell 0 0 (by decide) (by decide)
  rw [hsum] at h00
  exact ⟨Cb, Ct, hb, ht, h00.1, h00.2, by decide, by decide, by decide, by decide⟩

/-- C5, amended: for every block size `T ≥ 1`, every `N` divisible by `T` and
all scalars `a`, `b` of any element type with `0`, `+` and `*` (the program's
`float` included): with `A` filled with `a`, `B` filled with `b` and both
outputs filled with `0`, `baseline_matmul` and `tiled_matmul` (loop budget at
least `N / T`) complete and every cell `(i, j)` with `i, j < N` of either
output is `a * b` added `N` times, left to right, to `0`.  In exact arithmetic
(any semiring) that sum is `a * b * N`. -/
theorem uniform_fill_repeated_sum {α : Type u} [Zero α] [Add α] [Mul α] (fuel N T : Nat)
    (a b : α) (MA MB MC MD : Matrix α) (hT : 1 ≤ T) (hdvd : T ∣ N) (hfuel : N / T ≤ fuel) :
    (∃ Cb Ct,
      baseline_matmul N (initialize_matrix N MA a) (initialize_matrix N MB b)
        (initialize_matrix N MC 0) = Outcome.done Cb ∧
      tiled_matmul fuel N T (initialize_matrix N MA a) (initialize_matrix N MB b)
        (initialize_matrix N MD 0) = Outcome.done Ct ∧
      ∀ i j, i < N → j < N →
        Cb.get? i j = some (Nat.iterate (fun s => s + a * b) N 0) ∧
        Ct.get? i j = some (Nat.iterate (fun s => s + a * b) N 0)) ∧
    (∀ (β : Type u) [Semiring β] (x y : β),
      Nat.iterate (fun s => s + x * y) N 0 = x * y * (N : β)) :=
  ⟨uniform_fill_cells fuel N T a b MA MB MC MD hT hdvd hfuel,
    fun _ _ x y => repeated_sum_semiring (x * y) N⟩

set_option maxRecDepth 100000 in
/-- Witness for amended C5, in binary32: `N = 256, T = 32, a = 2, b = 3` gives
`1536` in every cell, `N = 64, T = 16, a = b = 1` gives `64`, and
`N = 1024, T = 32, a = 2, b = 3` gives `6144`; and the compiled configuration
as run by `main`, in exact arithmetic, gives `6144`. -/
theorem uniform_fill_repeated_sum_witness :
    (1 ≤ 32 ∧ 32 ∣ 256 ∧ 256 / 32 ≤ 8 ∧
      ∃ Cb Ct,
        baseline_matmul 256 (initialize_matrix 256 [] (F32.finite false (2 ^ 150)))
          (initialize_matrix 256 [] (F32.finite false (3 * 2 ^ 149))) (initialize_matrix 256 [] 0)
            = Outcome.done Cb ∧
        tiled_matmul 8 256 32 (initialize_matrix 256 [] (F32.finite false (2 ^ 150)))
          (initialize_matrix 256 [] (F32.finite false (3 * 2 ^ 149))) (initialize_matrix 256 [] 0)
            = Outcome.done Ct ∧
        ∀ i j, i < 256 → j < 256 →
          Cb.get? i j = some (F32.finite false (1536 * 2 ^ 149)) ∧
          Ct.get? i j = some (F32.finite false (1536 * 2 ^ 149))) ∧
    (1 ≤ 16 ∧ 16 ∣ 64 ∧ 64 / 16 ≤ 4 ∧
      ∃ Cb Ct,
        baseline_matmul 64 (initialize_matrix 64 [] (F32.finite false (2 ^ 149)))
          (initialize_matrix 64 [] (F32.finite false (2 ^ 149))) (initialize_matrix 64 [] 0)
            = Outcome.done Cb ∧
        tiled_matmul 4 64 16 (initialize_matrix 64 [] (F32.finite false (2 ^ 149)))
          (initialize_matrix 64 [] (F32.finite false (2 ^ 149))) (initialize_matrix 64 [] 0)
            = Outcome.done Ct ∧
        ∀ i j, i < 64 → j < 64 →
          Cb.get? i j = some (F32.finite false (64 * 2 ^ 149)) ∧
          Ct.get? i j = some (F32.finite false (64 * 2 ^ 149))) ∧
    (1 ≤ 32 ∧ 32 ∣ 1024 ∧ 1024 / 32 ≤ 32 ∧
      ∃ Cb Ct,
        baseline_matmul 1024 (initialize_matrix 1024 [] (F32.finite false (2 ^ 150)))
          (initialize_matrix 1024 [] (F32.finite false (3 * 2 ^ 149))) (initialize_matrix 1024 [] 0)
            = Outcome.done Cb ∧
        tiled_matmul 32 1024 32 (initialize_matrix 1024 [] (F32.finite false (2 ^ 150)))
          (initialize_matrix 1024 [] (F32.finite false (3 * 2 ^ 149))) (initialize_matrix 1024 [] 0)
            = Outcome.done Ct ∧
        ∀ i j, i < 1024 → j < 1024 →
          Cb.get? i j = some (F32.finite false (6144 * 2 ^ 149)) ∧
          Ct.get? i j = some (F32.finite false (6144 * 2 ^ 149))) ∧
    (1 ≤ Compiled.BLOCK_SIZE ∧ Compiled.BLOCK_SIZE ∣ Compiled.N ∧
      Compiled.N / Compiled.BLOCK_SIZE ≤ 32 ∧
      ∃ Cb Ct,
        (main 32 Compiled.N Compiled.BLOCK_SIZE 1 1).C_base = Outcome.done Cb ∧
        (main 32 Compiled.N Compiled.BLOCK_SIZE 1 1).C_tiled = Outcome.done Ct ∧
        ∀ i j, i < 1024 → j < 1024 → Cb.get? i j = some 6144 ∧ Ct.get? i j = some 6144) := by
  refine ⟨⟨by decide, by decide, by decide, ?_⟩, ⟨by decide, by decide, by decide, ?_⟩,
    ⟨by decide, by decide, by decide, ?_⟩, ⟨by decide, by decide, by decide, ?_⟩⟩
  · obtain ⟨⟨Cb, Ct, h1, h2, h3⟩, _⟩ := uniform_fill_repeated_sum 8 256 32
      (F32.finite false (2 ^ 150)) (F32.finite false (3 * 2 ^ 149)) [] [] [] []
      (by decide) (by decide) (by decide)
    have hprod : F32.finite false (2 ^ 150) * F32.finite false (3 * 2 ^ 149)
        = F32.finite false (6 * 2 ^ 149) := by decide
    have hsum := F32.repeated_sum_exact 6 149 (by decide) 256 (by decide)
    have hval : 256 * 6 * 2 ^ 149 = 1536 * 2 ^ 149 := by decide
    rw [hprod, hsum, hval] at h3
    exact ⟨Cb, Ct, h1, h2, h3⟩
  · obtain ⟨⟨Cb, Ct, h1, h2, h3⟩, _⟩ := uniform_fill_repeated_sum 4 64 16
      (F32.finite false (2 ^ 149)) (F32.finite false (2 ^ 149)) [] [] [] []
      (by decide) (by decide) (by decide)
    have hprod : F32.finite false (2 ^ 149) * F32.finite false (2 ^ 149)
        = F32.finite false (1 * 2 ^ 149) := by decide
    have hsum := F32.repeated_sum_exact 1 149 (by decide) 64 (by decide)
    have hval : 64 * 1 * 2 ^ 149 = 64 * 2 ^ 149 := by decide
    rw [hprod, hsum, hval] at h3
    exact ⟨Cb, Ct, h1, h2, h3⟩
  · obtain ⟨⟨Cb, Ct, h1, h2, h3⟩, _⟩ := uniform_fill_repeated_sum 32 1024 32
      (F32.finite false (2 ^ 150)) (F32.finite false (3 * 2 ^ 149)) [] [] [] []
      (by decide) (by decide) (by decide)
    have hprod : F32.finite false (2 ^ 150) * F32.finite false (3 * 2 ^ 149)
        = F32.finite false (6 * 2 ^ 149) := by decide
    have hsum := F32.repeated_sum_exact 6 149 (by decide) 1024 (by decide)
    have hval : 1024 * 6 * 2 ^ 149 = 6144 * 2 ^ 149 := by decide
    rw [hprod, hsum, hval] at h3
    exact ⟨Cb, Ct, h1, h2, h3⟩
  · obtain ⟨⟨Cb, Ct, h1, h2, h3⟩, hexact⟩ :=
      uniform_fill_repeated_sum 32 Compiled.N Compiled.BLOCK_SIZE (2 : ℚ) 3 [] [] [] []
        (by decide) (by decide) (by decide)
    rw [main_C_base, main_C_tiled]
    refine ⟨Cb, Ct, h1, h2, fun i j hi hj => ?_⟩
    have hi' : i < Compiled.N := hi
    have hj' : j < Compiled.N := hj
    have h := h3 i j hi' hj'
    have e : Nat.iterate (fun s => s + (2 : ℚ) * 3) Compiled.N 0 = 6144 := by
      rw [hexact ℚ 2 3]
      simp only [Compiled.N]; norm_num
    rw [e] at h
    exact h

end UniformClaims

end MatmulTiling
